import Mathlib

/-!
Verification development for the watchtower-sentry streaming pipeline.

Shallow embedding of the core operators of the repository:

* `filters/MovingStat.py` — `_sortedlist_add_remove`, `Quantile.prediction`,
  `Mean.prediction`, and the `MovingStat.run` per-sample algorithm;
* `filters/TimeOrder.py` — `TimeOrder._handle_kvt` and `TimeOrder.run`;
* `filters/AggSum.py` — `AggSum.run` with its full-group, timeout-sweep and
  late-data (watermark) paths;
* `sinks/AlertKafka.py` — the thresholding state machine of `AlertKafka.run`.

Python numbers are embedded as `ℚ` (values) and `ℤ` (timestamps, wall-clock
seconds); Python `//` is `Int.fdiv`; Python `None` is `Option.none`; a raised
exception (`ZeroDivisionError`, `IndexError`) is `Except.error ()`.
Python dicts keyed by strings are embedded as association lists: `OrderedDict`
iteration order is list order, and plain-dict lookup ignores order.
-/

namespace Watchtower

/-! ### Association-list helpers (embedding of Python `dict`) -/

/-- Lookup in a Python dict modelled as an association list. -/
def alookup {α β : Type} [DecidableEq α] (l : List (α × β)) (k : α) : Option β :=
  (l.find? (fun p => p.1 = k)).map (·.2)

/-- Python `d[k] = v`: replace the binding if the key is present, else append
(Python dicts keep insertion order, so a new key goes to the end). -/
def aset {α β : Type} [DecidableEq α] (l : List (α × β)) (k : α) (v : β) :
    List (α × β) :=
  if (l.find? (fun p => p.1 = k)).isSome then
    l.map (fun p => if p.1 = k then (k, v) else p)
  else l ++ [(k, v)]

/-- Python `del d[k]`. -/
def adel {α β : Type} [DecidableEq α] (l : List (α × β)) (k : α) :
    List (α × β) :=
  l.filter (fun p => ¬ p.1 = k)

/-- Python `k in d`. -/
def amem {α β : Type} [DecidableEq α] (l : List (α × β)) (k : α) : Bool :=
  (l.find? (fun p => p.1 = k)).isSome

/-! ### Python integer/list primitives used by MovingStat -/

/-- Python `bisect.bisect_left(slist, x)` on a sorted list: the number of
elements strictly below `x`.  (`MovingStat.py` also passes `lo=left`; on a
sorted list with `lo` at most the true insertion point — which the caller's
branch condition guarantees — the result is the same.) -/
def bisectLeft (l : List ℚ) (x : ℚ) : Nat := l.countP (fun y => decide (y < x))

/-- Python `bisect.bisect_right(slist, x)` on a sorted list: the number of
elements less than or equal to `x`. -/
def bisectRight (l : List ℚ) (x : ℚ) : Nat := l.countP (fun y => decide (y ≤ x))

/-- Python slice read `l[a:b]` (for `0 ≤ a ≤ b`). -/
def pySlice {α : Type} (l : List α) (a b : Nat) : List α :=
  (l.drop a).take (b - a)

/-- Python slice assignment `l[a:b] = repl` (the right-hand side having been
materialised first, as Python does). -/
def pySliceSet {α : Type} (l : List α) (a b : Nat) (repl : List α) : List α :=
  l.take a ++ repl ++ l.drop b

/-- `_sortedlist_add_remove(slist, additem, rmitem)` from
`filters/MovingStat.py` lines 73-102: remove one occurrence of `rmitem` from a
sorted list and insert `additem`, by shifting only the region between the two
positions.  The function's precondition (callers maintain it) is that `slist`
is sorted and contains `rmitem`. -/
def sortedlistAddRemove (slist : List ℚ) (additem rmitem : ℚ) : List ℚ :=
  if rmitem < additem then
    let left := bisectRight slist rmitem
    let right := bisectLeft slist additem
    (pySliceSet slist (left - 1) (right - 1) (pySlice slist left right)).set
      (right - 1) additem
  else if additem < rmitem then
    let left := bisectRight slist additem
    let right := bisectLeft slist rmitem
    (pySliceSet slist (left + 1) (right + 1) (pySlice slist left right)).set
      left additem
  else
    slist

/-- Python `bisect.insort(slist, v)`: insert at the right of any equal
elements (index `bisect_right`).  Used by `MovingStat.Quantile.insert`. -/
def insortRight (l : List ℚ) (v : ℚ) : List ℚ :=
  l.take (bisectRight l v) ++ v :: l.drop (bisectRight l v)

/-! ### `MovingStat.Quantile.prediction` (filters/MovingStat.py lines 201-212) -/

/-- Nearest-rank quantile of `MovingStat.Quantile.prediction`:
`k = 0` returns `values[0]` (an `IndexError`, modelled as `.error ()`, when
the list is empty); otherwise `N = 0` returns Python `None`, and else the
element at index `-(-N*k // q) - 1` where `//` is Python floor division
(`Int.fdiv`).  `q = 0` in that branch would be a `ZeroDivisionError`. -/
def Quantile.prediction (k q : Nat) (values : List ℚ) : Except Unit (Option ℚ) :=
  if k = 0 then
    match values with
    | [] => .error ()
    | v :: _ => .ok (some v)
  else
    let N := values.length
    if N = 0 then .ok none
    else if q = 0 then .error ()
    else
      let rank : Int := -(Int.fdiv (-(N * k : Nat) : Int) q) - 1
      match values.get? rank.toNat with
      | some v => .ok (some v)
      | none => .error ()

/-- The statistic table `stattype_params` of `MovingStat.__init__`
(lines 149-155): `min`, `max` and `median` are the quantiles `0/1`, `1/1` and
`1/2`; `mean` is the running-sum statistic. -/
inductive StatKind : Type
  | mean : StatKind
  | quantile (k q : Nat) : StatKind
deriving DecidableEq, Repr

/-- Named statistic types and their parameters (`"quantile"` itself takes its
two parameters from the configuration instead). -/
def stattypeParams : String → Option StatKind
  | "mean" => some .mean
  | "min" => some (.quantile 0 1)
  | "max" => some (.quantile 1 1)
  | "median" => some (.quantile 1 2)
  | _ => none

/-! ### The `MovingStat` per-key state and per-sample algorithm
(filters/MovingStat.py lines 164-376) -/

/-- The auxiliary statistic container: `Quantile.values` (a sorted list over
the window's multiset of values) or `Mean.sum` (a running sum). -/
inductive Aux : Type
  | values (l : List ℚ) : Aux
  | sums (s : ℚ) : Aux
deriving DecidableEq, Repr

/-- `initialize()`: build the auxiliary structure from the window's current
contents (`sorted([v for v, t in self.vtq])` for quantiles, `sum` for mean). -/
def Aux.initFrom (kind : StatKind) (vtq : List (ℚ × Int)) : Aux :=
  match kind with
  | .mean => .sums ((vtq.map (·.1)).sum)
  | .quantile _ _ => .values ((vtq.map (·.1)).insertionSort (· ≤ ·))

/-- `remove(val)`: `self.values.remove(val)` (first occurrence) for quantiles,
`self.sum -= val` for mean. -/
def Aux.removeVal : Aux → ℚ → Aux
  | .values l, v => .values (l.erase v)
  | .sums s, v => .sums (s - v)

/-- `insert(val)`: `bisect.insort` for quantiles, `self.sum += val` for mean. -/
def Aux.insertVal : Aux → ℚ → Aux
  | .values l, v => .values (insortRight l v)
  | .sums s, v => .sums (s + v)

/-- `insert_remove(ins_val, rm_val)`: `_sortedlist_add_remove` for quantiles;
`sum -= rm; sum += ins` for mean. -/
def Aux.insertRemove : Aux → ℚ → ℚ → Aux
  | .values l, ins, rm => .values (sortedlistAddRemove l ins rm)
  | .sums s, ins, rm => .sums (s - rm + ins)

/-- `prediction()`.  `Mean.prediction` is `self.sum / len(self.vtq)` — a
`ZeroDivisionError` (`.error ()`) when the window deque is empty.  The
`.values`/`.mean` cross case cannot arise (the container is always built by
`Aux.initFrom` with the filter's own statistic kind). -/
def Aux.predictionOf (kind : StatKind) (vtqLen : Nat) : Aux → Except Unit (Option ℚ)
  | .values l =>
    match kind with
    | .quantile k q => Quantile.prediction k q l
    | .mean => .error ()
  | .sums s => if vtqLen = 0 then .error () else .ok (some (s / (vtqLen : ℚ)))

/-- Per-key state of `MovingStat`: the window deque `vtq` of `(value, time)`
(front = oldest), the raw deque collected while inpainting, and the auxiliary
structure (`None` while uninitialized, i.e. during warmup or after `reset`). -/
structure StatData : Type where
  vtq : List (ℚ × Int)
  raw_vtq : Option (List (ℚ × Int))
  aux : Option Aux
deriving DecidableEq, Repr

/-- A freshly created per-key state (`self.statclass(self)`). -/
def StatData.empty : StatData := ⟨[], none, none⟩

/-- The configuration of a `MovingStat` instance.
`inpaint_maxduration = none` means no `inpainting` block was configured
(`should_inpaint` is then constantly false). -/
structure MSConfig : Type where
  kind : StatKind
  warmup : Int
  history : Int
  normalize : Bool
  includeabsolute : Bool
  minprediction : Option ℚ
  inpaint_min : Option ℚ
  inpaint_max : Option ℚ
  inpaint_maxduration : Option Int
deriving Repr

/-- `ratio_is_extreme` (lines 247-256).  Python truthiness: a configured
bound equal to `0` is falsy and disables that side. -/
def MSConfig.ratioIsExtreme (cfg : MSConfig) (ratio : Option ℚ) : Bool :=
  match ratio with
  | none => false
  | some r =>
    (match cfg.inpaint_min with
     | some m => decide (¬ m = 0) && decide (r < m)
     | none => false) ||
    (match cfg.inpaint_max with
     | some m => decide (¬ m = 0) && decide (r > m)
     | none => false)

/-- `should_inpaint`: `ratio_is_extreme` when inpainting is configured, else
constantly false (lines 131, 140). -/
def MSConfig.shouldInpaint (cfg : MSConfig) (ratio : Option ℚ) : Bool :=
  match cfg.inpaint_maxduration with
  | none => false
  | some _ => cfg.ratioIsExtreme ratio

/-- The eviction loop of lines 302-306: pop window entries older than
`window_start` and remove each popped value from the auxiliary structure. -/
def evictLoop (ws : Int) : List (ℚ × Int) → Aux → List (ℚ × Int) × Aux
  | [], aux => ([], aux)
  | (v, tt) :: rest, aux =>
    if tt < ws then evictLoop ws rest (aux.removeVal v)
    else ((v, tt) :: rest, aux)

/-- The value part of an emitted sample (line 373-376): `predicted` when
`normalize` is false, else the ratio, else the `(ratio, actual, predicted)`
triple. -/
inductive MSVal : Type
  | pred (p : Option ℚ)
  | ratio (r : Option ℚ)
  | triple (r : Option ℚ) (v : ℚ) (p : Option ℚ)
deriving DecidableEq, Repr

/-- An output sample of `MovingStat`. -/
structure MSOut : Type where
  key : String
  val : MSVal
  t : Int
deriving DecidableEq, Repr

/-- The whole filter state: `self.data` and `self.last_key_time`. -/
structure MSState : Type where
  data : List (String × StatData)
  last_key_time : List (String × Option Int)
deriving DecidableEq, Repr

/-- Initial state. -/
def MSState.init : MSState := ⟨[], []⟩

/-- Lines 360-376, common to every path that reaches an emission: append
`(newval, t)` to the window, update the auxiliary structure (net insertion if
the window is not yet full, else pop the oldest and atomically replace), and
emit according to `normalize`/`includeabsolute`. -/
def msFinish (cfg : MSConfig) (st : MSState) (key : String) (value : ℚ)
    (t : Int) (d : StatData) (aux : Aux) (newval : ℚ)
    (predicted ratio : Option ℚ) : MSState × List MSOut :=
  let vtq2 := d.vtq ++ [(newval, t)]
  let ws := t - cfg.history
  let va : List (ℚ × Int) × Aux :=
    match vtq2 with
    | [] => (vtq2, aux)
    | (v0, t0) :: rest =>
      if t0 > ws then (vtq2, aux.insertVal newval)
      else (rest, aux.insertRemove newval v0)
  let d' : StatData := { d with vtq := va.1, aux := some va.2 }
  let out : MSOut :=
    if cfg.normalize = false then ⟨key, .pred predicted, t⟩
    else if cfg.includeabsolute = false then ⟨key, .ratio ratio, t⟩
    else ⟨key, .triple ratio value predicted, t⟩
  ({ st with data := aset st.data key d' }, [out])

/-- One iteration of the `MovingStat.run` loop (lines 261-376) on a sample
`(key, value, t)`.  `.error ()` models an uncaught Python exception. -/
def msStep (cfg : MSConfig) (st : MSState) (key : String) (value : Option ℚ)
    (t : Int) : Except Unit (MSState × List MSOut) :=
  match value with
  | none => .ok (st, [])
  | some v =>
    let d0 : StatData := (alookup st.data key).getD StatData.empty
    -- lines 275-280 only warn when t ≤ last_key_time[key]; the sample is
    -- still processed, and last_key_time is unconditionally set to t
    let stL : MSState := { st with last_key_time := aset st.last_key_time key (some t) }
    let warm : Bool :=
      match d0.vtq with
      | [] => true
      | (_, t0) :: _ => decide (t0 > t - cfg.warmup)
    if warm then
      .ok ({ stL with data := aset stL.data key { d0 with vtq := d0.vtq ++ [(v, t)] } }, [])
    else
      let ws := t - cfg.history
      let aux0 := match d0.aux with
        | some a => a
        | none => Aux.initFrom cfg.kind d0.vtq
      let ev1 := evictLoop ws d0.vtq aux0
      let vtq1 := ev1.1
      let aux1 := ev1.2
      let d1 : StatData := { d0 with vtq := vtq1, aux := some aux1 }
      match Aux.predictionOf cfg.kind vtq1.length aux1 with
      | .error e => .error e
      | .ok predicted =>
        if (match cfg.minprediction, predicted with
            | some m, some p => decide (p < m)
            | _, _ => false) then
          -- lines 311-315: prediction too low; skip the sample (evictions and
          -- initialization performed above persist, as in the source)
          .ok ({ stL with data := aset stL.data key d1 }, [])
        else
          let ratio : Option ℚ :=
            match predicted with
            | some p => if p ≠ 0 then some (v / p) else none
            | none => none
          let inpaintStarted : Option Int :=
            match d1.raw_vtq with
            | some ((_, t0) :: _) => some t0
            | _ => none
          if cfg.shouldInpaint ratio then
            match inpaintStarted with
            | none =>
              -- lines 324-329: start inpainting.  `should_inpaint` implies
              -- the ratio (hence `predicted`) is non-null, so `getD 0` is
              -- never taken
              let d2 := { d1 with raw_vtq := some [(v, t)] }
              .ok (msFinish cfg stL key v t d2 aux1 (predicted.getD 0) predicted ratio)
            | some t0 =>
              if t0 > t - (cfg.inpaint_maxduration.getD 0) then
                -- lines 330-334: continue inpainting
                let d2 := { d1 with raw_vtq := d1.raw_vtq.map (· ++ [(v, t)]) }
                .ok (msFinish cfg stL key v t d2 aux1 (predicted.getD 0) predicted ratio)
              else
                -- lines 335-352: extreme is the new normal
                match d1.raw_vtq.getD [] with
                | [] => .error ()
                | (vr0, tr0) :: rawRest =>
                  if tr0 > t - cfg.warmup then
                    -- lines 342-346: not enough data; reset and store
                    let d2 : StatData :=
                      ⟨((vr0, tr0) :: rawRest) ++ [(v, t)], none, none⟩
                    .ok ({ stL with data := aset stL.data key d2 }, [])
                  else
                    let vtqR := (vr0, tr0) :: rawRest
                    let aux2 := Aux.initFrom cfg.kind vtqR
                    match Aux.predictionOf cfg.kind vtqR.length aux2 with
                    | .error e => .error e
                    | .ok predicted2 =>
                      let ratio2 : Option ℚ :=
                        match predicted2 with
                        | some p => if p ≠ 0 then some (v / p) else none
                        | none => none
                      let d2 : StatData := ⟨vtqR, none, some aux2⟩
                      .ok (msFinish cfg stL key v t d2 aux2 v predicted2 ratio2)
          else
            -- lines 353-358: not extreme; cancel any inpainting episode
            let d2 := { d1 with raw_vtq := none }
            .ok (msFinish cfg stL key v t d2 aux1 v predicted ratio)

/-- An input sample of `MovingStat`. -/
structure MSIn : Type where
  key : String
  value : Option ℚ
  t : Int
deriving Repr

/-- The `MovingStat.run` loop over a finite input stream.  Outputs yielded
before an exception are kept; the exception aborts the rest of the run. -/
def msRun (cfg : MSConfig) : MSState → List MSIn → List MSOut × Except Unit MSState
  | st, [] => ([], .ok st)
  | st, x :: xs =>
    match msStep cfg st x.key x.value x.t with
    | .error e => ([], .error e)
    | .ok (st', outs) =>
      let pr := msRun cfg st' xs
      (outs ++ pr.1, pr.2)

/-! ### The `TimeOrder` filter (filters/TimeOrder.py) -/

/-- An input sample of `TimeOrder`; `now` is the wall clock (`time.time()`)
observed while handling this sample. -/
structure TOIn : Type where
  key : String
  value : ℚ
  t : Int
  now : Int
deriving Repr

/-- An output sample of `TimeOrder`. -/
structure TOOut : Type where
  key : String
  value : ℚ
  t : Int
deriving DecidableEq, Repr

/-- A sample that `TimeOrder` discards: either dropped as too old
(`t < last_key_time[key] + interval`, the final `else` of `_handle_kvt`), or
an earlier buffered value overwritten by `kv_buf[key][t] = val` for the same
buffered time `t`. -/
structure TODisc : Type where
  key : String
  value : ℚ
  t : Int
  wasOverwrite : Bool
deriving DecidableEq, Repr

/-- The `TimeOrder` state: `last_key_time`, the per-key future buffer
`kv_buf[key][ts] = val`, and the per-key wall-clock stamp `kv_buf_timer`. -/
structure TOState : Type where
  last_key_time : List (String × Option Int)
  kv_buf : List (String × List (Int × ℚ))
  kv_buf_timer : List (String × Option Int)
deriving DecidableEq, Repr

/-- Initial state. -/
def TOState.init : TOState := ⟨[], [], []⟩

/-- The buffered-drain loop of `_handle_kvt` lines 71-82: walk the sorted
buffer times; emit an entry when in force-drain mode or when it is exactly
`last_key_time + interval`; stop at the first entry that is neither.  Returns
the emissions and the final `(last_key_time, kv_buf[key], kv_buf_timer)`. -/
def drainLoop (interval : Int) (key : String) (now : Int) :
    List Int → Bool → Int → List (Int × ℚ) → Option Int →
    List TOOut × (Int × List (Int × ℚ) × Option Int)
  | [], _, lkt, buf, kbt => ([], (lkt, buf, kbt))
  | bt :: rest, force, lkt, buf, kbt =>
    if force || bt = lkt + interval then
      match alookup buf bt with
      | some v =>
        let pr := drainLoop interval key now rest false bt (adel buf bt) (some now)
        (⟨key, v, bt⟩ :: pr.1, pr.2)
      | none => ([], (lkt, buf, kbt))
    else ([], (lkt, buf, kbt))

/-- `TimeOrder._handle_kvt(key, val, t)` (lines 39-82). -/
def handleKvt (interval timeout : Int) (s : TOState) (key : String) (val : ℚ)
    (t now : Int) : TOState × List TOOut × List TODisc :=
  -- lines 41-44: first time we see this key
  let lkt0 : Option Int := (alookup s.last_key_time key).getD none
  let buf0 : List (Int × ℚ) := (alookup s.kv_buf key).getD []
  let kbt0 : Option Int := (alookup s.kv_buf_timer key).getD none
  let force0 : Bool := kbt0.elim false (fun k => decide (k + timeout ≤ now))
  let fastPath : Bool :=
    match lkt0 with
    | none => true
    | some lkt => decide (t = lkt + interval)
  if fastPath then
    -- lines 57-64: expected timestamp; emit and drain from the new watermark
    let bufTimes := (buf0.map (·.1)).insertionSort (· ≤ ·)
    let pr := drainLoop interval key now bufTimes false t buf0 (some now)
    (⟨aset s.last_key_time key (some pr.2.1),
      aset s.kv_buf key pr.2.2.1,
      aset s.kv_buf_timer key pr.2.2.2⟩,
     ⟨key, val, t⟩ :: pr.1, [])
  else
    match lkt0 with
    | none => (s, [], [])
    | some lkt =>
      if t > lkt + interval then
        -- lines 65-67: future data point; buffer it (a previously buffered
        -- value at the same time is overwritten and lost)
        let disc : List TODisc :=
          match alookup buf0 t with
          | some oldv => [⟨key, oldv, t, true⟩]
          | none => []
        let buf1 := aset buf0 t val
        if force0 then
          let bufTimes := (buf1.map (·.1)).insertionSort (· ≤ ·)
          let pr := drainLoop interval key now bufTimes true lkt buf1 kbt0
          (⟨aset s.last_key_time key (some pr.2.1),
            aset s.kv_buf key pr.2.2.1,
            aset s.kv_buf_timer key pr.2.2.2⟩,
           pr.1, disc)
        else
          (⟨s.last_key_time, aset s.kv_buf key buf1, s.kv_buf_timer⟩, [], disc)
      else
        -- lines 68-69: too old, drop
        let disc : List TODisc := [⟨key, val, t, false⟩]
        if force0 then
          let bufTimes := (buf0.map (·.1)).insertionSort (· ≤ ·)
          let pr := drainLoop interval key now bufTimes true lkt buf0 kbt0
          (⟨aset s.last_key_time key (some pr.2.1),
            aset s.kv_buf key pr.2.2.1,
            aset s.kv_buf_timer key pr.2.2.2⟩,
           pr.1, disc)
        else
          (s, [], disc)

/-- The final drain of `TimeOrder.run` (lines 89-92): every remaining
buffered entry, per key in buffer insertion order, in ascending time order. -/
def toFinalDrain : List (String × List (Int × ℚ)) → List TOOut
  | [] => []
  | (k, buf) :: rest =>
    ((buf.map (·.1)).insertionSort (· ≤ ·)).filterMap
      (fun bt => (alookup buf bt).map (fun v => TOOut.mk k v bt)) ++
    toFinalDrain rest

/-- `TimeOrder.run()`: handle each input, then flush the buffers. -/
def toRun (interval timeout : Int) : TOState → List TOIn →
    TOState × List TOOut × List TODisc
  | s, [] => (s, toFinalDrain s.kv_buf, [])
  | s, x :: xs =>
    let a := handleKvt interval timeout s x.key x.value x.t x.now
    let b := toRun interval timeout a.1 xs
    (b.1, a.2.1 ++ b.2.1, a.2.2 ++ b.2.2)

/-! ### The `AggSum` filter (filters/AggSum.py)

Key matching is abstracted: each compiled expression regex is a function
`String → Option GroupId` returning the tuple of captured substrings on a
match, and the `run` loop takes the first match in expression order
(`firstMatch`).  Expressions are identified by their index.  The synthesized
output group key is a fixed function of the `(expression, group id)` pair
(`AggSum.groupkey` substitutes the captures into the pattern), so all
statements are made at the `(expression index, group id)` level.

The bucket store is the insertion-ordered `agg_by_seen` (an `OrderedDict`
keyed by `(expression, groupid, t)`); `agg_by_group` is the same store
indexed differently and is embedded as filtering of `agg_by_seen`.

The `contribs` field of `Agginfo` is verification instrumentation: it records
the value of every sample accumulated into the bucket, appended exactly where
lines 154-156 increment `count` and `vsum`.  It influences nothing. -/

/-- Captured substrings of a pattern match. -/
abbrev GroupId := List String

/-- A bucket key: `(expression index, group id, bucket time)`. -/
abbrev AggKey := Nat × GroupId × Int

/-- `AggSum._Agginfo` plus the `contribs` ghost field. -/
structure Agginfo : Type where
  first_seen : Int
  count : Nat
  vsum : ℚ
  contribs : List (Option ℚ)
deriving DecidableEq, Repr

/-- The `AggSum` state: the insertion-ordered bucket store and the per-group
watermark `old_keys`. -/
structure AggState : Type where
  agg_by_seen : List (AggKey × Agginfo)
  old_keys : List ((Nat × GroupId) × Int)
deriving DecidableEq, Repr

/-- Initial state. -/
def AggState.init : AggState := ⟨[], []⟩

/-- The watermark of a group: `old_keys[expression][groupid]`, the timestamp
of the most recent complete or expired data for the group. -/
def oldKey (s : AggState) (e : Nat) (g : GroupId) : Option Int :=
  alookup s.old_keys (e, g)

/-- `AggSum._is_old` (lines 111-113): a sample is late iff its bucket time is
strictly below the group's watermark. -/
def isOld (s : AggState) (e : Nat) (g : GroupId) (t : Int) : Bool :=
  match oldKey s e g with
  | some w => decide (t < w)
  | none => false

/-- `AggSum._update_oldkeys` (lines 115-118): raise the watermark to `t` if
it is unset or below `t`. -/
def updateOldkeys (ok : List ((Nat × GroupId) × Int)) (e : Nat) (g : GroupId)
    (t : Int) : List ((Nat × GroupId) × Int) :=
  match alookup ok (e, g) with
  | none => aset ok (e, g) t
  | some w => if t > w then aset ok (e, g) t else ok

/-- A bucket finalization event: the bucket for `(e, g, t)` was completed or
expired.  `emitted` is false only for buckets silently discarded because
`droppartial` is set; `vsum`, `count` and `contribs` are the bucket's
contents at that moment. -/
structure AggEv : Type where
  e : Nat
  g : GroupId
  t : Int
  vsum : ℚ
  count : Nat
  contribs : List (Option ℚ)
  emitted : Bool
deriving DecidableEq, Repr

/-- The bucket times currently stored for a group
(`self.agg_by_group[ascii_exp][groupid].keys()`). -/
def groupTimes (seen : List (AggKey × Agginfo)) (e : Nat) (g : GroupId) :
    List Int :=
  (seen.filter (fun p => decide (p.1.1 = e ∧ p.1.2.1 = g))).map (·.1.2.2)

/-- `AggSum._expire_oldtimes` (lines 94-109): finalize, in ascending time
order, every bucket of the group with time `< max_t` (yielding it unless
`droppartial`), deleting each from both indices. -/
def expireOldtimes (dp : Bool) (seen : List (AggKey × Agginfo)) (e : Nat)
    (g : GroupId) (maxT : Int) : List (AggKey × Agginfo) × List AggEv :=
  let oldtimes :=
    ((groupTimes seen e g).filter (fun ot => decide (ot < maxT))).insertionSort (· ≤ ·)
  let evs := oldtimes.filterMap (fun ot =>
    (alookup seen (e, g, ot)).map (fun info =>
      AggEv.mk e g ot info.vsum info.count info.contribs (!dp)))
  let seen' := seen.filter (fun p =>
    !(decide (p.1.1 = e ∧ p.1.2.1 = g ∧ p.1.2.2 < maxT)))
  (seen', evs)

/-- The timeout sweep of `AggSum.run` (lines 183-200), with explicit fuel for
structural recursion: pop buckets from the front of `agg_by_seen` while their
`first_seen` is at most `expiry = now - timeout`; each popped bucket first
expires the group's earlier times, is then finalized itself (yielded unless
`droppartial`), and raises the group's watermark.  Each iteration removes at
least the popped bucket, so fuel `agg_by_seen.length` always suffices (on
exhausted fuel the store is empty and the loop would stop anyway). -/
def aggSweepAux (dp : Bool) (expiry : Int) : Nat → AggState → AggState × List AggEv
  | 0, s => (s, [])
  | fuel + 1, s =>
    match s.agg_by_seen with
    | [] => (s, [])
    | (ak, info) :: rest =>
      if info.first_seen > expiry then (s, [])
      else
        let e := ak.1
        let g := ak.2.1
        let t := ak.2.2
        let ex := expireOldtimes dp rest e g t
        let ev := AggEv.mk e g t info.vsum info.count info.contribs (!dp)
        let ok1 := updateOldkeys s.old_keys e g t
        let rec1 := aggSweepAux dp expiry fuel ⟨ex.1, ok1⟩
        (rec1.1, ex.2 ++ [ev] ++ rec1.2)

/-- The timeout sweep entry point. -/
def aggSweep (dp : Bool) (expiry : Int) (s : AggState) : AggState × List AggEv :=
  aggSweepAux dp expiry s.agg_by_seen.length s

/-- One iteration of the `AggSum.run` loop (lines 122-200) on a sample that
matched expression `e` with captured groups `g`.  `gs` is `groupsize` with
`0` for unset (Python `None` and `0` are equally falsy at line 162); `v` is
the sample value (`none` adds nothing to `vsum` but still counts). -/
def aggStep (gs : Nat) (timeout : Int) (dp : Bool) (s : AggState) (e : Nat)
    (g : GroupId) (v : Option ℚ) (t now : Int) : AggState × List AggEv :=
  if isOld s e g t then
    -- lines 140-143: late data for an old aggregate; log and drop
    (s, [])
  else
    -- lines 144-160: find or lazily create the bucket, then accumulate
    let info1 : Agginfo :=
      match alookup s.agg_by_seen (e, g, t) with
      | some info =>
        { info with
          count := info.count + 1
          vsum := info.vsum + (v.getD 0)
          contribs := info.contribs ++ [v] }
      | none => ⟨now, 1, v.getD 0, [v]⟩
    let seen1 : List (AggKey × Agginfo) :=
      match alookup s.agg_by_seen (e, g, t) with
      | some _ => aset s.agg_by_seen (e, g, t) info1
      | none => s.agg_by_seen ++ [((e, g, t), info1)]
    -- lines 162-181: full group; finalize earlier times, then this bucket
    let se2 : AggState × List AggEv :=
      if gs ≠ 0 ∧ info1.count = gs then
        let ex := expireOldtimes dp (adel seen1 (e, g, t)) e g t
        let ev := AggEv.mk e g t info1.vsum info1.count info1.contribs true
        (AggState.mk ex.1 (updateOldkeys s.old_keys e g t), ex.2 ++ [ev])
      else (AggState.mk seen1 s.old_keys, [])
    -- lines 183-200: timeout sweep
    let sw := aggSweep dp (now - timeout) se2.1
    (sw.1, se2.2 ++ sw.2)

/-- An input sample of `AggSum` (with the wall clock at its arrival). -/
structure AggIn : Type where
  key : String
  value : Option ℚ
  t : Int
  now : Int

/-- First match wins: try the compiled expressions in order (lines 127-134).
Returns the expression index and the captured groups. -/
def firstMatch : List (String → Option GroupId) → String → Option (Nat × GroupId)
  | [], _ => none
  | m :: ms, key =>
    match m key with
    | some g => some (0, g)
    | none => (firstMatch ms key).map (fun p => (p.1 + 1, p.2))

/-- The `AggSum.run` loop: non-matching samples are dropped silently. -/
def aggRun (ms : List (String → Option GroupId)) (gs : Nat) (timeout : Int)
    (dp : Bool) : AggState → List AggIn → AggState × List AggEv
  | s, [] => (s, [])
  | s, x :: xs =>
    match firstMatch ms x.key with
    | none => aggRun ms gs timeout dp s xs
    | some (e, g) =>
      let a := aggStep gs timeout dp s e g x.value x.t x.now
      let b := aggRun ms gs timeout dp a.1 xs
      (b.1, a.2 ++ b.2)

/-! ### The `AlertKafka` sink state machine (sinks/AlertKafka.py lines 121-246)

The Kafka plumbing is out of scope; `_produce_alert` is embedded as appending
an alert record to the output list.  Statuses are the source's integers:
`STATUS_LOW = -1`, `STATUS_NORMAL = 0`, `STATUS_HIGH = 1`. -/

/-- The `AlertKafka` configuration subset that drives the state machine. -/
structure AKConfig : Type where
  amin : Option ℚ
  amax : Option ℚ
  minduration : Option Int
  waitnormal : Bool
deriving Repr

/-- An alert record as built by `_produce_alert`: the status (level is
`"critical"` iff nonzero), the stamped time, the `value` field
(`value if actual is None else actual`), and `history_value` (`predicted`). -/
structure AKAlert : Type where
  status : Int
  t : Int
  value : ℚ
  predicted : Option ℚ
deriving DecidableEq, Repr

/-- Pending-record payload `(time, value, actual, predicted)`. -/
abbrev AKPend := Int × ℚ × Option ℚ × Option ℚ

/-- The `AlertKafka` per-key state. -/
structure AKState : Type where
  alert_status : List (String × Int)
  alert_state : List (String × AKPend)
  normal_state : List (String × AKPend)
deriving DecidableEq, Repr

/-- Initial state. -/
def AKState.init : AKState := ⟨[], [], []⟩

/-- `_produce_alert(status, t, key, value, actual, predicted)`: the record's
`value` field is `value` when `actual` is `None`, else `actual`. -/
def produceAlert (status : Int) (t : Int) (value : ℚ)
    (actual predicted : Option ℚ) : AKAlert :=
  ⟨status, t, actual.getD value, predicted⟩

/-- One iteration of the `AlertKafka.run` loop on a sample for `key` carrying
`(value, actual, predicted)` at time `t` (`actual`/`predicted` are `none`
when the input value was not a triple).  A null `value` is skipped. -/
def akStep (cfg : AKConfig) (st : AKState) (key : String) (value : Option ℚ)
    (actual predicted : Option ℚ) (t : Int) : AKState × List AKAlert :=
  match value with
  | none => (st, [])
  | some v =>
    -- default to normal status for a new key (lines 140-142)
    let cur : Int := (alookup st.alert_status key).getD 0
    -- thresholding (lines 143-151): min is checked before max
    let ns : Int :=
      match cfg.amin with
      | some m => if v < m then -1 else
          match cfg.amax with
          | some M => if v > M then 1 else 0
          | none => 0
      | none =>
        match cfg.amax with
        | some M => if v > M then 1 else 0
        | none => 0
    if ns ≠ cur then
      -- status change (lines 154-211)
      let st1 : AKState := { st with alert_status := aset st.alert_status key ns }
      if cfg.minduration = none ∨ cfg.minduration = some 0 then
        (st1, [produceAlert ns t v actual predicted])
      else if ns = 0 then
        if amem st1.alert_state key then
          -- the event never reached minduration; discard the pending record
          ({ st1 with alert_state := adel st1.alert_state key }, [])
        else if cfg.waitnormal && !(amem st1.normal_state key) then
          ({ st1 with normal_state := aset st1.normal_state key (t, v, actual, predicted) }, [])
        else if !cfg.waitnormal then
          (st1, [produceAlert 0 t v actual predicted])
        else (st1, [])
      else
        if cfg.waitnormal && amem st1.normal_state key then
          ({ st1 with normal_state := adel st1.normal_state key }, [])
        else
          ({ st1 with alert_state := aset st1.alert_state key (t, v, actual, predicted) }, [])
    else if ns ≠ 0 then
      -- continuation of the non-normal event (lines 212-228)
      match alookup st.alert_state key with
      | some (it, iv, ia, ip) =>
        if it + cfg.minduration.getD 0 ≤ t then
          ({ st with alert_state := adel st.alert_state key },
           [produceAlert ns it iv ia ip])
        else (st, [])
      | none => (st, [])
    else
      -- continuation of normal (lines 230-246)
      if cfg.waitnormal then
        match alookup st.normal_state key with
        | some (it, iv, ia, ip) =>
          if it + cfg.minduration.getD 0 ≤ t then
            ({ st with normal_state := adel st.normal_state key },
             [produceAlert 0 it iv ia ip])
          else (st, [])
        | none => (st, [])
      else (st, [])

/-- An input sample of `AlertKafka`. -/
structure AKIn : Type where
  key : String
  value : Option ℚ
  actual : Option ℚ
  predicted : Option ℚ
  t : Int
deriving Repr

/-- The `AlertKafka.run` loop over a finite input stream. -/
def akRun (cfg : AKConfig) : AKState → List AKIn → AKState × List AKAlert
  | st, [] => (st, [])
  | st, x :: xs =>
    let a := akStep cfg st x.key x.value x.actual x.predicted x.t
    let b := akRun cfg a.1 xs
    (b.1, a.2 ++ b.2)

/-! ### Claim theorems -/

/-- C3 (code_bug evidence): the `N = 0` prediction case is reachable, and the
code crashes there.  With `mean`, `warmup = 10`, `history = 20`, the in-order
samples `(k,1,0), (k,1,11), (k,1,100)` pass warmup at `t = 11`, and at
`t = 100` the eviction loop (entries older than `t - history = 80`) empties
the window, so `Mean.prediction` divides by zero (`.error ()`); with the
`min` statistic (`quantile 0/1`) the same stream makes `Quantile.prediction`
index `values[0]` of an empty list. -/
theorem movingstat_empty_window_crash :
    (msRun ⟨.mean, 10, 20, true, false, none, none, none, none⟩ MSState.init
      [⟨"k", some 1, 0⟩, ⟨"k", some 1, 11⟩, ⟨"k", some 1, 100⟩]).2 = .error () ∧
    (msRun ⟨.quantile 0 1, 10, 20, true, false, none, none, none, none⟩ MSState.init
      [⟨"k", some 1, 0⟩, ⟨"k", some 1, 11⟩, ⟨"k", some 1, 100⟩]).2 = .error () := by
  constructor <;> rfl

/-- C8 (code_bug evidence): with `interval = 10` and a timeout that never
fires, the stream `(k,10), (k,35), (k,20), (k,30), (k,40)` buffers `t = 35`
(not on the `lkt + interval` grid), emits `10, 20, 30, 40` on the fast path,
and the final drain on source exhaustion then emits the stale `t = 35` after
`t = 40` — the emitted times for key `k` are not strictly increasing, contrary
to the module's own docstring ("tuples with monotonically increasing
timestamps"). -/
theorem timeorder_final_drain_nonmonotonic :
    ((toRun 10 1000 TOState.init
        [⟨"k", 1, 10, 0⟩, ⟨"k", 2, 35, 0⟩, ⟨"k", 3, 20, 0⟩, ⟨"k", 4, 30, 0⟩,
         ⟨"k", 5, 40, 0⟩]).2.1.map TOOut.t = [10, 20, 30, 40, 35]) ∧
    ¬ List.Pairwise (· < ·) [10, 20, 30, 40, (35 : Int)] := by
  constructor
  · rfl
  · decide

/-- C10: `AggSum` rejects a sample as late iff its bucket time is strictly
below the group's watermark (`_is_old`, lines 111-113), so a sample whose
bucket time equals the watermark is accepted and re-creates a fresh bucket
(count and sum starting at zero before the increment of lines 154-156).
With one match-all expression, `groupsize = 1` and `timeout = 100`, the
stream `(k,2,10), (k,3,10)` emits the bucket `(t = 10, vsum = 2)`, raising
the watermark to `10`, and then accepts the second `t = 10` sample and emits
a second output with the same group and the same timestamp
(`vsum = 3, count = 1`: the new bucket started from zero). -/
theorem aggsum_late_iff_strictly_below_watermark :
    (∀ (s : AggState) (e : Nat) (g : GroupId) (t : Int),
        isOld s e g t = true ↔ ∃ w, oldKey s e g = some w ∧ t < w) ∧
    (aggRun [fun _ => some []] 1 100 false AggState.init
        [⟨"k", some 2, 10, 0⟩, ⟨"k", some 3, 10, 0⟩]).2 =
      [⟨0, [], 10, 2, 1, [some 2], true⟩, ⟨0, [], 10, 3, 1, [some 3], true⟩] := by
  constructor
  · intro s e g t
    unfold isOld
    cases h : oldKey s e g with
    | none => simp
    | some w => simp [h]
  · rfl

/-- Python `-(-m // q)` is the ceiling of `m / q` (for a positive divisor). -/
lemma neg_fdiv_neg_eq_ceil (m q : Nat) (hq : 0 < q) :
    -(Int.fdiv (-(m : Int)) q) = ⌈(m : ℚ) / (q : ℚ)⌉ := by
  rw [Int.fdiv_eq_ediv _ (by exact_mod_cast Nat.zero_le q)]
  have hfloor := Rat.floor_intCast_div_natCast (-(m : Int)) q
  have hceil : ⌈(m : ℚ) / (q : ℚ)⌉ = -⌊-((m : ℚ) / (q : ℚ))⌋ := by
    rw [← Int.ceil_neg, neg_neg]
  rw [hceil, ← hfloor]
  congr 2
  push_cast
  ring

/-- C5: `Quantile.prediction` on a non-empty sorted window returns the element
at zero-based rank `⌈N·k/q⌉ − 1`, and the element at rank `0` when `k = 0`;
`median`, `min` and `max` are the table entries `quantile 1/2`, `0/1`, `1/1`
and hence follow the same formula. -/
theorem quantile_nearest_rank (k q : Nat) (values : List ℚ)
    (hne : values ≠ []) (hsorted : values.Sorted (· ≤ ·)) (hkq : k ≤ q)
    (hq : 0 < q) :
    (k = 0 → Quantile.prediction k q values = .ok (some (values.getD 0 0))) ∧
    (0 < k →
      (⌈((values.length : ℚ) * k) / q⌉ - 1).toNat < values.length ∧
      Quantile.prediction k q values =
        .ok (some (values.getD (⌈((values.length : ℚ) * k) / q⌉ - 1).toNat 0))) ∧
    stattypeParams "median" = some (.quantile 1 2) ∧
    stattypeParams "min" = some (.quantile 0 1) ∧
    stattypeParams "max" = some (.quantile 1 1) := by
  have hN : 0 < values.length := List.length_pos.mpr hne
  refine ⟨?_, ?_, rfl, rfl, rfl⟩
  · intro hk
    subst hk
    unfold Quantile.prediction
    cases values with
    | nil => exact absurd rfl hne
    | cons v vs => simp [List.getD]
  · intro hk
    have hkne : k ≠ 0 := Nat.pos_iff_ne_zero.mp hk
    have hcast : ((values.length * k : Nat) : ℚ) = (values.length : ℚ) * k := by
      push_cast; ring
    have hrank : -(Int.fdiv (-(values.length * k : Nat) : Int) q) - 1 =
        ⌈((values.length : ℚ) * k) / q⌉ - 1 := by
      rw [neg_fdiv_neg_eq_ceil _ q hq, hcast]
    have hpos : 0 < ⌈((values.length : ℚ) * k) / q⌉ := by
      rw [Int.lt_ceil]
      push_cast
      positivity
    have hle : ⌈((values.length : ℚ) * k) / q⌉ ≤ values.length := by
      rw [Int.ceil_le]
      rw [div_le_iff (by exact_mod_cast hq)]
      have : (k : ℚ) ≤ (q : ℚ) := by exact_mod_cast hkq
      calc (values.length : ℚ) * k ≤ (values.length : ℚ) * q := by
            apply mul_le_mul_of_nonneg_left this (by positivity)
        _ = (values.length : ℚ) * q := rfl
    have hidx : (⌈((values.length : ℚ) * k) / q⌉ - 1).toNat < values.length := by
      have h1 : ⌈((values.length : ℚ) * k) / q⌉ - 1 < (values.length : Int) := by
        omega
      omega
    refine ⟨hidx, ?_⟩
    unfold Quantile.prediction
    rw [if_neg hkne]
    simp only
    rw [if_neg (Nat.pos_iff_ne_zero.mp hN), if_neg (Nat.pos_iff_ne_zero.mp hq)]
    rw [hrank]
    rw [List.get?_eq_getElem?, List.getElem?_eq_getElem hidx]
    simp only [List.getD_eq_getElem?_getD]
    rw [List.getElem?_eq_getElem hidx]
    simp only [Option.getD_some]

/-- Witness for `quantile_nearest_rank` at `k = 1`, `q = 2` (the median) on
the sorted window `[1, 2, 3, 4]`. -/
theorem quantile_nearest_rank_witness :
    ((1 : Nat) = 0 →
      Quantile.prediction 1 2 [1, 2, 3, 4] = .ok (some (([1, 2, 3, 4] : List ℚ).getD 0 0))) ∧
    (0 < (1 : Nat) →
      (⌈((([1, 2, 3, 4] : List ℚ).length : ℚ) * (1 : Nat)) / (2 : Nat)⌉ - 1).toNat <
        ([1, 2, 3, 4] : List ℚ).length ∧
      Quantile.prediction 1 2 [1, 2, 3, 4] =
        .ok (some (([1, 2, 3, 4] : List ℚ).getD
          (⌈((([1, 2, 3, 4] : List ℚ).length : ℚ) * (1 : Nat)) / (2 : Nat)⌉ - 1).toNat 0))) ∧
    stattypeParams "median" = some (.quantile 1 2) ∧
    stattypeParams "min" = some (.quantile 0 1) ∧
    stattypeParams "max" = some (.quantile 1 1) :=
  quantile_nearest_rank 1 2 [1, 2, 3, 4] (by decide) (by decide) (by decide) (by decide)

/-- C2 counterexample: `MovingStat` fully processes an input whose time is
not greater than `last_key_time` (it only warns), so with `mean`,
`warmup = 10`, `history = 100` the in-order-then-repeated stream
`(k,1,0), (k,1,20), (k,1,20)` emits two outputs both at `t = 20`: the
per-key emitted times are not strictly increasing. -/
theorem movingstat_output_times_not_strict :
    ((msRun ⟨.mean, 10, 100, true, false, none, none, none, none⟩ MSState.init
        [⟨"k", some 1, 0⟩, ⟨"k", some 1, 20⟩, ⟨"k", some 1, 20⟩]).1.map MSOut.t
      = [20, 20]) ∧
    ¬ List.Pairwise (· < ·) [(20 : Int), 20] := by
  constructor
  · rfl
  · decide

/-- Helper: the single sample `msFinish` emits carries the input's key and
time. -/
lemma msFinish_out (cfg : MSConfig) (st : MSState) (key : String) (v : ℚ)
    (t : Int) (d : StatData) (aux : Aux) (nv : ℚ) (p r : Option ℚ) :
    ∃ mv, (msFinish cfg st key v t d aux nv p r).2 = [MSOut.mk key mv t] := by
  unfold msFinish
  by_cases h1 : cfg.normalize = false
  · exact ⟨.pred p, by simp [h1]⟩
  · by_cases h2 : cfg.includeabsolute = false
    · exact ⟨.ratio r, by simp [h1, h2]⟩
    · exact ⟨.triple r v p, by simp [h1, h2]⟩

/-- Helper: an equation with `msFinish` determines the output's key and
time. -/
lemma of_msFinish_eq {cfg : MSConfig} {st0 : MSState} {key : String} {v : ℚ}
    {t : Int} {d : StatData} {aux : Aux} {nv : ℚ} {p r : Option ℚ}
    {st' : MSState} {outs : List MSOut}
    (h : msFinish cfg st0 key v t d aux nv p r = (st', outs)) :
    ∃ mv, outs = [MSOut.mk key mv t] := by
  obtain ⟨mv, hmv⟩ := msFinish_out cfg st0 key v t d aux nv p r
  have h2 : outs = (msFinish cfg st0 key v t d aux nv p r).2 := by rw [h]
  exact ⟨mv, by rw [h2, hmv]⟩

/-- Helper: every sample `msStep` emits carries the input's key and time, and
a step emits at most one sample. -/
lemma msStep_out_shape (cfg : MSConfig) (st : MSState) (key : String)
    (value : Option ℚ) (t : Int) (st' : MSState) (outs : List MSOut)
    (h : msStep cfg st key value t = .ok (st', outs)) :
    outs = [] ∨ ∃ mv, outs = [MSOut.mk key mv t] := by
  unfold msStep at h
  split at h
  · rw [Except.ok.injEq] at h
    exact Or.inl (congrArg Prod.snd h).symm
  · dsimp only at h
    repeat' split at h
    all_goals
      first
      | (injection h with h1
         first
         | exact Or.inl (congrArg Prod.snd h1).symm
         | exact Or.inr (of_msFinish_eq h1))
      | injection h

/-- Helper: per key, the emitted times of a `MovingStat` run form a sublist
of the input times for that key (each input produces at most one output,
stamped with the input's own key and time). -/
lemma msRun_times_sublist (cfg : MSConfig) (K : String) :
    ∀ (inputs : List MSIn) (st : MSState),
      (((msRun cfg st inputs).1.filter (fun o => decide (o.key = K))).map MSOut.t).Sublist
        ((inputs.filter (fun x => decide (x.key = K))).map MSIn.t) := by
  intro inputs
  induction inputs with
  | nil => intro st; simp [msRun]
  | cons x xs ih =>
    intro st
    show (((msRun cfg st (x :: xs)).1.filter _).map _).Sublist _
    rw [msRun]
    cases hstep : msStep cfg st x.key x.value x.t with
    | error e =>
      simp only
      exact List.nil_sublist _
    | ok p =>
      obtain ⟨st', outs⟩ := p
      simp only [List.filter_append, List.map_append]
      rcases msStep_out_shape cfg st x.key x.value x.t st' outs hstep with hsh | ⟨mv, hsh⟩
      · subst hsh
        simp only [List.filter_nil, List.map_nil, List.nil_append]
        by_cases hk : x.key = K
        · rw [List.filter_cons_of_pos (by simpa using hk)]
          simp only [List.map_cons]
          exact (ih st').cons _
        · rw [List.filter_cons_of_neg (by simpa using hk)]
          exact ih st'
      · subst hsh
        by_cases hk : x.key = K
        · rw [List.filter_cons_of_pos (by simpa using hk),
            List.filter_cons_of_pos (by simpa using hk)]
          simpa using (ih st').cons₂ x.t
        · rw [List.filter_cons_of_neg (by simpa using hk),
            List.filter_cons_of_neg (by simpa using hk)]
          simpa using ih st'

/-- C2 amended: per key, `MovingStat` emits at most one output per input,
stamped with the input's own time, so if the per-key input times are strictly
increasing then the per-key emitted times are strictly increasing; an
out-of-order input (only warned about, still processed) can instead repeat an
already-emitted time. -/
theorem movingstat_monotone_of_monotone_input (cfg : MSConfig)
    (inputs : List MSIn) (K : String)
    (h : List.Pairwise (· < ·)
      ((inputs.filter (fun x => decide (x.key = K))).map MSIn.t)) :
    List.Pairwise (· < ·)
      (((msRun cfg MSState.init inputs).1.filter
          (fun o => decide (o.key = K))).map MSOut.t) :=
  List.Pairwise.sublist (msRun_times_sublist cfg K inputs MSState.init) h

/-- Witness for `movingstat_monotone_of_monotone_input` on a concrete
strictly increasing stream. -/
theorem movingstat_monotone_witness :
    List.Pairwise (· < ·)
      (((msRun ⟨.mean, 10, 100, true, false, none, none, none, none⟩
            MSState.init [⟨"k", some 1, 0⟩, ⟨"k", some 1, 20⟩, ⟨"k", some 1, 30⟩]).1.filter
          (fun o => decide (o.key = "k"))).map MSOut.t) :=
  movingstat_monotone_of_monotone_input
    ⟨.mean, 10, 100, true, false, none, none, none, none⟩
    [⟨"k", some 1, 0⟩, ⟨"k", some 1, 20⟩, ⟨"k", some 1, 30⟩] "k" (by decide)

section AlertEpisode

variable (mn mx : ℚ) (D : Int) (K : String)

/-- The configuration of claim C4: thresholds set, `minduration` set,
`waitnormal` unset. -/
def akCfg : AKConfig := ⟨some mn, some mx, some D, false⟩

/-- Mid-episode state: status high, optionally a pending record. -/
def akHighSt : Option AKPend → AKState
  | some π => ⟨[(K, 1)], [(K, π)], []⟩
  | none => ⟨[(K, 1)], [], []⟩

/-- Helper: the first non-normal sample of an episode stores the pending
record and emits nothing. -/
lemma akStep_first_high (hmn : mn < mx) (hD : ¬ D = 0) (v : ℚ) (t : Int)
    (hv : v > mx) :
    akStep (akCfg mn mx D) AKState.init K (some v) none none t =
      (akHighSt K (some (t, v, none, none)), []) := by
  have hvmn : ¬ v < mn := not_lt.mpr (le_of_lt (lt_trans hmn hv))
  simp [akStep, akCfg, akHighSt, alookup, amem, aset, adel, AKState.init,
    if_neg hvmn, if_pos hv, hD]

/-- Helper: a non-normal continuation with a pending record triggers the
alert, stamped with the pending time and value, exactly when
`t0 + minduration ≤ t`. -/
lemma akStep_high_pending (hmn : mn < mx) (v : ℚ) (t : Int) (π : AKPend)
    (hv : v > mx) :
    akStep (akCfg mn mx D) (akHighSt K (some π)) K (some v) none none t =
      if π.1 + D ≤ t then
        (akHighSt K none, [AKAlert.mk 1 π.1 (π.2.2.1.getD π.2.1) π.2.2.2])
      else (akHighSt K (some π), []) := by
  have hvmn : ¬ v < mn := not_lt.mpr (le_of_lt (lt_trans hmn hv))
  by_cases htr : π.1 + D ≤ t
  · simp [akStep, akCfg, akHighSt, alookup, amem, aset, adel, produceAlert,
      if_neg hvmn, if_pos hv, htr]
  · simp [akStep, akCfg, akHighSt, alookup, amem, aset, adel, produceAlert,
      if_neg hvmn, if_pos hv, htr]

/-- Helper: a non-normal continuation after the alert fired does nothing. -/
lemma akStep_high_fired (hmn : mn < mx) (v : ℚ) (t : Int) (hv : v > mx) :
    akStep (akCfg mn mx D) (akHighSt K none) K (some v) none none t =
      (akHighSt K none, []) := by
  have hvmn : ¬ v < mn := not_lt.mpr (le_of_lt (lt_trans hmn hv))
  simp [akStep, akCfg, akHighSt, alookup, amem, aset, adel,
    if_neg hvmn, if_pos hv]

/-- Helper: the return to normal discards a still-pending record silently. -/
lemma akStep_normal_pending (hD : ¬ D = 0) (v : ℚ) (t : Int) (π : AKPend)
    (hvmn : ¬ v < mn) (hvmx : ¬ v > mx) :
    akStep (akCfg mn mx D) (akHighSt K (some π)) K (some v) none none t =
      (⟨[(K, 0)], [], []⟩, []) := by
  simp [akStep, akCfg, akHighSt, alookup, amem, aset, adel,
    if_neg hvmn, if_neg hvmx, hD]

/-- Helper: the return to normal after the alert fired emits exactly one
return-to-normal alert. -/
lemma akStep_normal_fired (hD : ¬ D = 0) (v : ℚ) (t : Int)
    (hvmn : ¬ v < mn) (hvmx : ¬ v > mx) :
    akStep (akCfg mn mx D) (akHighSt K none) K (some v) none none t =
      (⟨[(K, 0)], [], []⟩, [AKAlert.mk 0 t v none]) := by
  simp [akStep, akCfg, akHighSt, alookup, amem, aset, adel, produceAlert,
    if_neg hvmn, if_neg hvmx, hD]

/-- Helper: after the alert fired, the remaining non-normal samples emit
nothing and the final normal sample emits one return-to-normal alert. -/
lemma akRun_after_fired (hmn : mn < mx) (hD : ¬ D = 0) (vN : ℚ) (tN : Int)
    (hvmn : ¬ vN < mn) (hvmx : ¬ vN > mx) :
    ∀ (rest : List (ℚ × Int)), (∀ p ∈ rest, p.1 > mx) →
      (akRun (akCfg mn mx D) (akHighSt K none)
        (rest.map (fun p => AKIn.mk K (some p.1) none none p.2) ++
          [AKIn.mk K (some vN) none none tN])).2 = [AKAlert.mk 0 tN vN none] := by
  intro rest
  induction rest with
  | nil =>
    intro _
    simp [akRun, akStep_normal_fired mn mx D K hD vN tN hvmn hvmx]
  | cons p rest ih =>
    intro hall
    simp only [List.map_cons, List.cons_append, akRun]
    rw [akStep_high_fired mn mx D K hmn p.1 p.2 (hall p (List.mem_cons_self p rest))]
    simpa using ih (fun q hq => hall q (List.mem_cons_of_mem p hq))

/-- Helper: from a pending record `π`, the run over the remaining episode
emits the critical alert stamped with the pending data iff some later
non-normal sample time reaches `π.1 + minduration`, followed in that case by
one return-to-normal alert. -/
lemma akRun_from_pending (hmn : mn < mx) (hD : ¬ D = 0) (vN : ℚ) (tN : Int)
    (hvmn : ¬ vN < mn) (hvmx : ¬ vN > mx) :
    ∀ (rest : List (ℚ × Int)) (π : AKPend), (∀ p ∈ rest, p.1 > mx) →
      (akRun (akCfg mn mx D) (akHighSt K (some π))
        (rest.map (fun p => AKIn.mk K (some p.1) none none p.2) ++
          [AKIn.mk K (some vN) none none tN])).2 =
      if rest.any (fun p => decide (π.1 + D ≤ p.2)) then
        [AKAlert.mk 1 π.1 (π.2.2.1.getD π.2.1) π.2.2.2, AKAlert.mk 0 tN vN none]
      else [] := by
  intro rest
  induction rest with
  | nil =>
    intro π _
    simp [akRun, akStep_normal_pending mn mx D K hD vN tN π hvmn hvmx]
  | cons p rest ih =>
    intro π hall
    simp only [List.map_cons, List.cons_append, akRun]
    rw [akStep_high_pending mn mx D K hmn p.1 p.2 π (hall p (List.mem_cons_self p rest))]
    by_cases htr : π.1 + D ≤ p.2
    · rw [if_pos htr]
      dsimp only
      simp only [List.append_eq]
      rw [akRun_after_fired mn mx D K hmn hD vN tN hvmn hvmx rest
        (fun q hq => hall q (List.mem_cons_of_mem p hq))]
      have hdec : decide (π.1 + D ≤ p.2) = true := decide_eq_true htr
      rw [List.any_cons, hdec, Bool.true_or]
      simp
    · rw [if_neg htr]
      dsimp only
      simp only [List.append_eq]
      rw [ih π (fun q hq => hall q (List.mem_cons_of_mem p hq))]
      have hdec : decide (π.1 + D ≤ p.2) = false := decide_eq_false htr
      rw [List.any_cons, hdec, Bool.false_or, List.nil_append]

end AlertEpisode

/-- C4: with `minduration = D > 0` configured and `waitnormal` unset, a
single-status non-normal episode (first sample `(v0, t0)`, continuations
`rest`, all above `max`) followed by a sample back inside `[min, max]`
produces no alert when every episode sample time stays below
`t0 + minduration`, and produces exactly one critical alert carrying the
pending start time `t0` and start value `v0`, followed by exactly one
return-to-normal alert, when some later episode sample time `t` satisfies
`t0 + minduration ≤ t`. -/
theorem alertkafka_minduration_contract (mn mx : ℚ) (D : Int) (K : String)
    (v0 vN : ℚ) (t0 tN : Int) (rest : List (ℚ × Int))
    (hmn : mn < mx) (hD : 0 < D) (hv0 : v0 > mx)
    (hrest : ∀ p ∈ rest, p.1 > mx) (hvNmn : ¬ vN < mn) (hvNmx : ¬ vN > mx) :
    (akRun ⟨some mn, some mx, some D, false⟩ AKState.init
      (AKIn.mk K (some v0) none none t0 ::
        (rest.map (fun p => AKIn.mk K (some p.1) none none p.2) ++
          [AKIn.mk K (some vN) none none tN]))).2 =
    if rest.any (fun p => decide (t0 + D ≤ p.2)) then
      [AKAlert.mk 1 t0 v0 none, AKAlert.mk 0 tN vN none]
    else [] := by
  have hD' : ¬ D = 0 := by omega
  rw [akRun]
  rw [show (⟨some mn, some mx, some D, false⟩ : AKConfig) = akCfg mn mx D from rfl]
  rw [akStep_first_high mn mx D K hmn hD' v0 t0 hv0]
  simp only
  rw [akRun_from_pending mn mx D K hmn hD' vN tN hvNmn hvNmx rest
    (t0, v0, none, none) hrest]
  simp

/-- Witness for `alertkafka_minduration_contract`: an episode that reaches
`minduration = 30` (samples at `100, 110, 130`, return to normal at `150`). -/
theorem alertkafka_minduration_witness :
    (akRun ⟨some (1/2 : ℚ), some 2, some 30, false⟩ AKState.init
      (AKIn.mk "k" (some 3) none none 100 ::
        (([(4, 110), (3, 130)] : List (ℚ × Int)).map
            (fun p => AKIn.mk "k" (some p.1) none none p.2) ++
          [AKIn.mk "k" (some 1) none none 150]))).2 =
    if ([(4, 110), (3, 130)] : List (ℚ × Int)).any
        (fun p => decide ((100 : Int) + 30 ≤ p.2)) then
      [AKAlert.mk 1 100 3 none, AKAlert.mk 0 150 1 none]
    else [] :=
  alertkafka_minduration_contract (1/2) 2 30 "k" 3 1 100 150 [(4, 110), (3, 130)]
    (by norm_num) (by decide) (by norm_num) (by decide) (by norm_num) (by norm_num)

/-! ### Helper lemmas for the sorted-list region-shift proof (C6) -/

/-- Helper: a witness satisfying `p` but not `q` makes `countP q` strictly
smaller than `countP p` (when `q` implies `p`). -/
lemma countP_lt_of_mem {p q : ℚ → Bool} {s : List ℚ} {x : ℚ} (hx : x ∈ s)
    (hpx : p x = true) (hqx : q x = false)
    (himp : ∀ y ∈ s, q y = true → p y = true) :
    s.countP q < s.countP p := by
  induction s with
  | nil => cases hx
  | cons b l ih =>
    rw [List.countP_cons, List.countP_cons]
    rcases List.mem_cons.mp hx with rfl | hx'
    · have hmono : l.countP q ≤ l.countP p :=
        List.countP_mono_left (fun y hy hqy => himp y (List.mem_cons_of_mem _ hy) hqy)
      simp [hpx, hqx]
      omega
    · have hrec := ih hx' (fun y hy hqy => himp y (List.mem_cons_of_mem _ hy) hqy)
      by_cases hqb : q b = true
      · have hpb := himp b (List.mem_cons_self _ _) hqb
        simp [hpb, hqb]
        omega
      · simp only [Bool.not_eq_true] at hqb
        simp only [hqb, Bool.false_eq_true, if_false]
        split <;> omega

/-- Helper: in a sorted list, the elements satisfying a downward-closed
predicate are exactly the first `countP p` ones. -/
lemma sorted_prefix_countP {p : ℚ → Bool}
    (hdc : ∀ x y : ℚ, x ≤ y → p y = true → p x = true) :
    ∀ {s : List ℚ}, s.Sorted (· ≤ ·) → ∀ i (h : i < s.length),
      (p (s.get ⟨i, h⟩) = true ↔ i < s.countP p) := by
  intro s
  induction s with
  | nil =>
    intro _ i h
    exact absurd h (by simp)
  | cons b l ih =>
    intro hs i h
    have hb : ∀ y ∈ l, b ≤ y := List.rel_of_sorted_cons hs
    have hl : l.Sorted (· ≤ ·) := hs.of_cons
    rw [List.countP_cons]
    cases i with
    | zero =>
      show p b = true ↔ 0 < l.countP p + if p b then 1 else 0
      by_cases hpb : p b = true
      · simp [hpb]
      · simp only [Bool.not_eq_true] at hpb
        have hall : l.countP p = 0 :=
          List.countP_eq_zero.mpr (fun y hy hpy => by
            have hcontra := hdc b y (hb y hy) hpy
            rw [hpb] at hcontra
            exact absurd hcontra (by simp))
        simp [hpb, hall]
    | succ i' =>
      have h' : i' < l.length := by simpa using h
      have hIH := ih hl i' h'
      show p (l.get ⟨i', h'⟩) = true ↔ i' + 1 < l.countP p + if p b then 1 else 0
      by_cases hpb : p b = true
      · rw [if_pos hpb]
        exact hIH.trans (by omega)
      · simp only [Bool.not_eq_true] at hpb
        have hall : l.countP p = 0 :=
          List.countP_eq_zero.mpr (fun y hy hpy => by
            have hcontra := hdc b y (hb y hy) hpy
            rw [hpb] at hcontra
            exact absurd hcontra (by simp))
        have hget : p (l.get ⟨i', h'⟩) = false := by
          have hmem : l.get ⟨i', h'⟩ ∈ l := l.get_mem i' h'
          have hnot := List.countP_eq_zero.mp hall _ hmem
          simpa using hnot
        rw [hget, hall, if_neg (by simp [hpb])]
        simp

/-- Helper: inserting `a` at a position `j` that respects the order keeps a
sorted list sorted. -/
lemma sorted_insert_at {U : List ℚ} (hU : U.Sorted (· ≤ ·)) (a : ℚ) (j : Nat)
    (hle : ∀ i (h : i < U.length), i < j → U.get ⟨i, h⟩ ≤ a)
    (hge : ∀ i (h : i < U.length), j ≤ i → a ≤ U.get ⟨i, h⟩) :
    (U.take j ++ a :: U.drop j).Sorted (· ≤ ·) := by
  have htake : (U.take j).Sorted (· ≤ ·) :=
    List.Pairwise.sublist (List.take_sublist j U) hU
  have hdrop : (U.drop j).Sorted (· ≤ ·) :=
    List.Pairwise.sublist (List.drop_sublist j U) hU
  have hmem_take : ∀ x ∈ U.take j, x ≤ a := by
    intro x hx
    obtain ⟨i, hi, hget⟩ := List.mem_iff_getElem.mp hx
    rw [List.getElem_take] at hget
    have hij : i < j := lt_of_lt_of_le hi (by simp [List.length_take])
    have hiU : i < U.length := by
      have := hi
      simp [List.length_take] at this
      omega
    subst hget
    exact hle i hiU (by
      have := hi
      simp [List.length_take] at this
      omega)
  have hmem_drop : ∀ y ∈ U.drop j, a ≤ y := by
    intro y hy
    obtain ⟨i, hi, hget⟩ := List.mem_iff_getElem.mp hy
    rw [List.getElem_drop] at hget
    have hiU : j + i < U.length := by
      have := hi
      simp [List.length_drop] at this
      omega
    subst hget
    exact hge (j + i) hiU (by omega)
  rw [List.Sorted, List.pairwise_append]
  refine ⟨htake, ?_, ?_⟩
  · rw [List.pairwise_cons]
    exact ⟨hmem_drop, hdrop⟩
  · intro x hx y hy
    rcases List.mem_cons.mp hy with rfl | hy'
    · exact hmem_take x hx
    · exact le_trans (hmem_take x hx) (hmem_drop y hy')

/-- Helper: removing the element at a position holding `r` from a sorted list
is, up to permutation, `erase r`, and the result is sorted. -/
lemma remove_at_perm_erase {s : List ℚ} (hs : s.Sorted (· ≤ ·))
    {j : Nat} (hj : j < s.length) {r : ℚ} (hr : s.get ⟨j, hj⟩ = r) :
    (s.take j ++ s.drop (j + 1)).Perm (s.erase r) ∧
    (s.take j ++ s.drop (j + 1)).Sorted (· ≤ ·) := by
  have hrs : r ∈ s := hr ▸ s.get_mem j hj
  have hdecomp : s = s.take j ++ r :: s.drop (j + 1) := by
    conv_lhs => rw [← List.take_append_drop j s]
    congr 1
    rw [List.drop_eq_getElem_cons hj]
    simp [List.get_eq_getElem] at hr
    rw [hr]
  constructor
  · have h1 : s.Perm (r :: (s.take j ++ s.drop (j + 1))) := by
      conv_lhs => rw [hdecomp]
      exact List.perm_middle
    have h2 : s.Perm (r :: s.erase r) := List.perm_cons_erase hrs
    exact (h1.symm.trans h2).cons_inv
  · have hsub : (s.take j ++ s.drop (j + 1)).Sublist s := by
      conv_rhs => rw [← List.take_append_drop j s]
      refine List.Sublist.append_left ?_ _
      have : s.drop (j + 1) = (s.drop j).drop 1 := by
        rw [List.drop_drop]
      rw [this]
      exact List.drop_sublist 1 (s.drop j)
    exact List.Pairwise.sublist hsub hs

/-- Helper: setting the element just after a prefix. -/
lemma set_append_length {α : Type} (X : List α) (y v : α) (Z : List α) :
    (X ++ y :: Z).set X.length v = X ++ v :: Z := by
  induction X with
  | nil => rfl
  | cons x X ih => simp [List.set_cons_succ, ih]

/-- Helper: `set_append_length` with the index given by an equation. -/
lemma set_append_len_eq {α : Type} (X : List α) (y v : α) (Z : List α)
    (n : Nat) (h : n = X.length) : (X ++ y :: Z).set n v = X ++ v :: Z := by
  subst h
  exact set_append_length X y v Z

/-- Helper: inserting `a` at an order-respecting position of a sorted list
produces `orderedInsert`. -/
lemma insert_take_drop_eq_orderedInsert {U : List ℚ} (hU : U.Sorted (· ≤ ·))
    (a : ℚ) (n : Nat)
    (hle : ∀ i (h : i < U.length), i < n → U.get ⟨i, h⟩ ≤ a)
    (hge : ∀ i (h : i < U.length), n ≤ i → a ≤ U.get ⟨i, h⟩) :
    U.take n ++ a :: U.drop n = List.orderedInsert (· ≤ ·) a U := by
  have h1 : (U.take n ++ a :: U.drop n).Perm (a :: (U.take n ++ U.drop n)) :=
    List.perm_middle
  rw [List.take_append_drop] at h1
  exact List.eq_of_perm_of_sorted (h1.trans (List.perm_orderedInsert _ a U).symm)
    (sorted_insert_at hU a n hle hge) (List.Sorted.orderedInsert a U hU)

/-- C6 core: `_sortedlist_add_remove` equals the naive remove-then-insert
algorithm on a sorted list containing the removed item. -/
lemma sortedlistAddRemove_eq (s : List ℚ) (a r : ℚ)
    (hs : s.Sorted (· ≤ ·)) (hr : r ∈ s) :
    sortedlistAddRemove s a r = List.orderedInsert (· ≤ ·) a (s.erase r) := by
  have heraseSorted : (s.erase r).Sorted (· ≤ ·) :=
    List.Pairwise.sublist (List.erase_sublist r s) hs
  have hdc_ler : ∀ x y : ℚ, x ≤ y → decide (y ≤ r) = true → decide (x ≤ r) = true := by
    intro x y hxy h
    simp at h ⊢
    exact le_trans hxy h
  have hdc_ltr : ∀ x y : ℚ, x ≤ y → decide (y < r) = true → decide (x < r) = true := by
    intro x y hxy h
    simp at h ⊢
    exact lt_of_le_of_lt hxy h
  have hdc_lta : ∀ x y : ℚ, x ≤ y → decide (y < a) = true → decide (x < a) = true := by
    intro x y hxy h
    simp at h ⊢
    exact lt_of_le_of_lt hxy h
  have hdc_lea : ∀ x y : ℚ, x ≤ y → decide (y ≤ a) = true → decide (x ≤ a) = true := by
    intro x y hxy h
    simp at h ⊢
    exact le_trans hxy h
  unfold sortedlistAddRemove bisectRight bisectLeft
  by_cases hra : r < a
  · rw [if_pos hra]
    have hlenL : s.countP (fun y => decide (y ≤ r)) ≤ s.length := List.countP_le_length _
    have hstrict : s.countP (fun y => decide (y < r)) < s.countP (fun y => decide (y ≤ r)) :=
      countP_lt_of_mem hr (by simp) (by simp)
        (fun y _ hq => by simp at hq ⊢; exact le_of_lt hq)
    have hlpos : 0 < s.countP (fun y => decide (y ≤ r)) := by omega
    have hlr : s.countP (fun y => decide (y ≤ r)) ≤ s.countP (fun y => decide (y < a)) :=
      List.countP_mono_left (fun y _ hy => by
        simp at hy ⊢
        exact lt_of_le_of_lt hy hra)
    have hrlen : s.countP (fun y => decide (y < a)) ≤ s.length := List.countP_le_length _
    have hj : s.countP (fun y => decide (y ≤ r)) - 1 < s.length := by omega
    have hgetle : s.get ⟨s.countP (fun y => decide (y ≤ r)) - 1, hj⟩ ≤ r := by
      have h1 := (sorted_prefix_countP hdc_ler hs (s.countP (fun y => decide (y ≤ r)) - 1) hj).mpr
        (by omega)
      simpa using h1
    have hgetge : ¬ s.get ⟨s.countP (fun y => decide (y ≤ r)) - 1, hj⟩ < r := by
      intro hlt
      have h1 := (sorted_prefix_countP hdc_ltr hs (s.countP (fun y => decide (y ≤ r)) - 1) hj).mp
        (by simpa using hlt)
      omega
    have hget : s.get ⟨s.countP (fun y => decide (y ≤ r)) - 1, hj⟩ = r :=
      le_antisymm hgetle (not_lt.mp hgetge)
    obtain ⟨hUperm, hUsorted⟩ := remove_at_perm_erase hs hj hget
    rw [show s.countP (fun y => decide (y ≤ r)) - 1 + 1 = s.countP (fun y => decide (y ≤ r)) from by omega] at hUperm hUsorted
    have hUeq : s.take (s.countP (fun y => decide (y ≤ r)) - 1) ++ s.drop (s.countP (fun y => decide (y ≤ r))) = s.erase r :=
      List.eq_of_perm_of_sorted hUperm hUsorted heraseSorted
    have hcount_s : s.countP (fun y => decide (y < a)) =
        (s.erase r).countP (fun y => decide (y < a)) + 1 := by
      have h1 : s.Perm (r :: s.erase r) := List.perm_cons_erase hr
      have h2 := h1.countP_eq (fun y => decide (y < a))
      rw [List.countP_cons] at h2
      simp only [decide_eq_true hra, if_pos] at h2
      omega
    have hUcount : (s.take (s.countP (fun y => decide (y ≤ r)) - 1) ++ s.drop (s.countP (fun y => decide (y ≤ r)))).countP
        (fun y => decide (y < a)) = s.countP (fun y => decide (y < a)) - 1 := by
      rw [hUeq]
      omega
    have hUlen : (s.take (s.countP (fun y => decide (y ≤ r)) - 1) ++ s.drop (s.countP (fun y => decide (y ≤ r)))).length =
        s.length - 1 := by
      rw [List.length_append, List.length_take, List.length_drop]
      omega
    have hle : ∀ i (h : i < (s.take (s.countP (fun y => decide (y ≤ r)) - 1) ++
          s.drop (s.countP (fun y => decide (y ≤ r)))).length), i < s.countP (fun y => decide (y < a)) - 1 →
        (s.take (s.countP (fun y => decide (y ≤ r)) - 1) ++ s.drop (s.countP (fun y => decide (y ≤ r)))).get ⟨i, h⟩ ≤ a := by
      intro i h hi
      have h1 := (sorted_prefix_countP hdc_lta hUsorted i h).mpr (by omega)
      simp at h1
      exact le_of_lt h1
    have hge : ∀ i (h : i < (s.take (s.countP (fun y => decide (y ≤ r)) - 1) ++
          s.drop (s.countP (fun y => decide (y ≤ r)))).length), s.countP (fun y => decide (y < a)) - 1 ≤ i →
        a ≤ (s.take (s.countP (fun y => decide (y ≤ r)) - 1) ++ s.drop (s.countP (fun y => decide (y ≤ r)))).get ⟨i, h⟩ := by
      intro i h hi
      refine not_lt.mp (fun hlt => ?_)
      have h1 := (sorted_prefix_countP hdc_lta hUsorted i h).mp (by simpa using hlt)
      omega
    have hkey := insert_take_drop_eq_orderedInsert hUsorted a (s.countP (fun y => decide (y < a)) - 1) hle hge
    dsimp only
    rw [← hUeq, ← hkey]
    -- it remains to show the region-shift term equals the take/drop insertion
    unfold pySliceSet pySlice
    have htakeU : (s.take (s.countP (fun y => decide (y ≤ r)) - 1) ++ s.drop (s.countP (fun y => decide (y ≤ r)))).take
        (s.countP (fun y => decide (y < a)) - 1) =
        s.take (s.countP (fun y => decide (y ≤ r)) - 1) ++ (s.drop (s.countP (fun y => decide (y ≤ r)))).take
          (s.countP (fun y => decide (y < a)) - s.countP (fun y => decide (y ≤ r))) := by
      rw [List.take_append_eq_append_take]
      rw [List.take_all_of_le (by rw [List.length_take]; omega)]
      congr 2
      rw [List.length_take]
      omega
    have hdropU : (s.take (s.countP (fun y => decide (y ≤ r)) - 1) ++ s.drop (s.countP (fun y => decide (y ≤ r)))).drop
        (s.countP (fun y => decide (y < a)) - 1) = s.drop (s.countP (fun y => decide (y < a))) := by
      rw [List.drop_append_eq_append_drop]
      rw [List.drop_eq_nil_of_le (by rw [List.length_take]; omega)]
      rw [List.nil_append, List.drop_drop, List.length_take]
      congr 1
      omega
    rw [htakeU, hdropU]
    have hidx : s.countP (fun y => decide (y < a)) - 1 < s.length := by omega
    have harith : s.countP (fun y => decide (y < a)) - 1 + 1 =
        s.countP (fun y => decide (y < a)) := by omega
    have hsplit : s.drop (s.countP (fun y => decide (y < a)) - 1) =
        s.getD (s.countP (fun y => decide (y < a)) - 1) 0 ::
          s.drop (s.countP (fun y => decide (y < a))) := by
      rw [List.drop_eq_getElem_cons hidx, List.getD_eq_getElem s 0 hidx, harith]
    rw [hsplit]
    rw [set_append_len_eq _ _ _ _ _ (by
      rw [List.length_append, List.length_take, List.length_take, List.length_drop]
      omega)]
  · rw [if_neg hra]
    by_cases har : a < r
    · rw [if_pos har]
      have hlenR : s.countP (fun y => decide (y < r)) ≤ s.length := List.countP_le_length _
      have hstrict : s.countP (fun y => decide (y < r)) < s.countP (fun y => decide (y ≤ r)) :=
        countP_lt_of_mem hr (by simp) (by simp)
          (fun y _ hq => by simp at hq ⊢; exact le_of_lt hq)
      have hlenR' : s.countP (fun y => decide (y ≤ r)) ≤ s.length :=
        List.countP_le_length _
      have hjR : s.countP (fun y => decide (y < r)) < s.length := by omega
      have hlr : s.countP (fun y => decide (y ≤ a)) ≤ s.countP (fun y => decide (y < r)) :=
        List.countP_mono_left (fun y _ hy => by
          simp at hy ⊢
          exact lt_of_le_of_lt hy har)
      have hgetle : s.get ⟨s.countP (fun y => decide (y < r)), hjR⟩ ≤ r := by
        have h1 := (sorted_prefix_countP hdc_ler hs (s.countP (fun y => decide (y < r))) hjR).mpr
          (by omega)
        simpa using h1
      have hgetge : ¬ s.get ⟨s.countP (fun y => decide (y < r)), hjR⟩ < r := by
        intro hlt
        have h1 := (sorted_prefix_countP hdc_ltr hs (s.countP (fun y => decide (y < r))) hjR).mp
          (by simpa using hlt)
        omega
      have hget : s.get ⟨s.countP (fun y => decide (y < r)), hjR⟩ = r :=
        le_antisymm hgetle (not_lt.mp hgetge)
      obtain ⟨hUperm, hUsorted⟩ := remove_at_perm_erase hs hjR hget
      have hUeq : s.take (s.countP (fun y => decide (y < r))) ++ s.drop (s.countP (fun y => decide (y < r)) + 1) = s.erase r :=
        List.eq_of_perm_of_sorted hUperm hUsorted heraseSorted
      have hcount_s : s.countP (fun y => decide (y ≤ a)) =
          (s.erase r).countP (fun y => decide (y ≤ a)) := by
        have h1 : s.Perm (r :: s.erase r) := List.perm_cons_erase hr
        have h2 := h1.countP_eq (fun y => decide (y ≤ a))
        rw [List.countP_cons] at h2
        simp only [decide_eq_false (not_le.mpr har), Bool.false_eq_true, if_false] at h2
        omega
      have hUcount : (s.take (s.countP (fun y => decide (y < r))) ++ s.drop (s.countP (fun y => decide (y < r)) + 1)).countP
          (fun y => decide (y ≤ a)) = s.countP (fun y => decide (y ≤ a)) := by
        rw [hUeq]
        omega
      have hle : ∀ i (h : i < (s.take (s.countP (fun y => decide (y < r))) ++
            s.drop (s.countP (fun y => decide (y < r)) + 1)).length), i < s.countP (fun y => decide (y ≤ a)) →
          (s.take (s.countP (fun y => decide (y < r))) ++ s.drop (s.countP (fun y => decide (y < r)) + 1)).get ⟨i, h⟩ ≤ a := by
        intro i h hi
        have h1 := (sorted_prefix_countP hdc_lea hUsorted i h).mpr (by omega)
        simpa using h1
      have hge : ∀ i (h : i < (s.take (s.countP (fun y => decide (y < r))) ++
            s.drop (s.countP (fun y => decide (y < r)) + 1)).length), s.countP (fun y => decide (y ≤ a)) ≤ i →
          a ≤ (s.take (s.countP (fun y => decide (y < r))) ++ s.drop (s.countP (fun y => decide (y < r)) + 1)).get ⟨i, h⟩ := by
        intro i h hi
        refine not_lt.mp (fun hlt => ?_)
        have h1 := (sorted_prefix_countP hdc_lea hUsorted i h).mp
          (by simpa using le_of_lt hlt)
        omega
      have hkey := insert_take_drop_eq_orderedInsert hUsorted a (s.countP (fun y => decide (y ≤ a))) hle hge
      dsimp only
      rw [← hUeq, ← hkey]
      unfold pySliceSet pySlice
      have htakeU : (s.take (s.countP (fun y => decide (y < r))) ++ s.drop (s.countP (fun y => decide (y < r)) + 1)).take
          (s.countP (fun y => decide (y ≤ a))) = s.take (s.countP (fun y => decide (y ≤ a))) := by
        rw [List.take_append_eq_append_take]
        rw [show s.countP (fun y => decide (y ≤ a)) - (s.take (s.countP (fun y => decide (y < r)))).length = 0 from by
          rw [List.length_take]; omega]
        rw [List.take_zero, List.append_nil, List.take_take]
        congr 1
        omega
      have hdropU : (s.take (s.countP (fun y => decide (y < r))) ++ s.drop (s.countP (fun y => decide (y < r)) + 1)).drop
          (s.countP (fun y => decide (y ≤ a))) =
          (s.drop (s.countP (fun y => decide (y ≤ a)))).take (s.countP (fun y => decide (y < r)) - s.countP (fun y => decide (y ≤ a))) ++
            s.drop (s.countP (fun y => decide (y < r)) + 1) := by
        rw [List.drop_append_eq_append_drop]
        rw [show s.countP (fun y => decide (y ≤ a)) - (s.take (s.countP (fun y => decide (y < r)))).length = 0 from by
          rw [List.length_take]; omega]
        rw [List.drop_zero, List.drop_take]
      rw [htakeU, hdropU]
      have hidx : s.countP (fun y => decide (y ≤ a)) < s.length := by omega
      have htk : s.take (s.countP (fun y => decide (y ≤ a)) + 1) =
          s.take (s.countP (fun y => decide (y ≤ a))) ++
            [s.getD (s.countP (fun y => decide (y ≤ a))) 0] := by
        rw [List.take_succ, List.getElem?_eq_getElem hidx,
          List.getD_eq_getElem s 0 hidx]
        rfl
      rw [htk, List.append_assoc, List.append_assoc, List.singleton_append]
      rw [set_append_len_eq _ _ _ _ _ (by rw [List.length_take]; omega)]
    · rw [if_neg har]
      have heq : a = r := le_antisymm (not_lt.mp hra) (not_lt.mp har)
      subst heq
      have h1 : s.Perm (List.orderedInsert (· ≤ ·) a (s.erase a)) :=
        (List.perm_cons_erase hr).trans (List.perm_orderedInsert _ a _).symm
      exact List.eq_of_perm_of_sorted h1 hs
        (List.Sorted.orderedInsert a _ heraseSorted)

/-- C6: on a sorted list containing `rmitem`, the region-shift update
`_sortedlist_add_remove` equals the naive algorithm (remove one occurrence of
`rmitem`, then insert `additem` at its sorted position — the spec-side
definition is `List.orderedInsert` after `List.erase`); in particular the
result is sorted and its multiset is `multiset(s) - {rmitem} + {additem}`. -/
theorem sortedlist_region_shift_refinement (s : List ℚ) (additem rmitem : ℚ)
    (hs : s.Sorted (· ≤ ·)) (hr : rmitem ∈ s) :
    sortedlistAddRemove s additem rmitem =
      List.orderedInsert (· ≤ ·) additem (s.erase rmitem) ∧
    (sortedlistAddRemove s additem rmitem).Sorted (· ≤ ·) ∧
    ((sortedlistAddRemove s additem rmitem : List ℚ) : Multiset ℚ) =
      ((s : List ℚ) : Multiset ℚ) - {rmitem} + {additem} := by
  have heq := sortedlistAddRemove_eq s additem rmitem hs hr
  have heraseSorted : (s.erase rmitem).Sorted (· ≤ ·) :=
    List.Pairwise.sublist (List.erase_sublist _ s) hs
  refine ⟨heq, ?_, ?_⟩
  · rw [heq]
    exact List.Sorted.orderedInsert _ _ heraseSorted
  · rw [heq]
    have hperm : (List.orderedInsert (· ≤ ·) additem (s.erase rmitem)).Perm
        (additem :: s.erase rmitem) := List.perm_orderedInsert _ _ _
    calc ((List.orderedInsert (· ≤ ·) additem (s.erase rmitem) : List ℚ) : Multiset ℚ)
        = ((additem :: s.erase rmitem : List ℚ) : Multiset ℚ) :=
          Multiset.coe_eq_coe.mpr hperm
      _ = additem ::ₘ ((s.erase rmitem : List ℚ) : Multiset ℚ) := rfl
      _ = additem ::ₘ (((s : List ℚ) : Multiset ℚ).erase rmitem) := by
          rw [Multiset.coe_erase]
      _ = additem ::ₘ (((s : List ℚ) : Multiset ℚ) - {rmitem}) := by
          rw [Multiset.sub_singleton]
      _ = ((s : List ℚ) : Multiset ℚ) - {rmitem} + {additem} := by
          rw [← Multiset.singleton_add, add_comm]

/-- Witness for `sortedlist_region_shift_refinement` on the sorted list
`[1, 2, 2, 4]`, removing `2` and inserting `3`. -/
theorem sortedlist_region_shift_witness :
    sortedlistAddRemove [1, 2, 2, 4] 3 2 =
      List.orderedInsert (· ≤ ·) 3 (([1, 2, 2, 4] : List ℚ).erase 2) ∧
    (sortedlistAddRemove [1, 2, 2, 4] 3 2).Sorted (· ≤ ·) ∧
    ((sortedlistAddRemove [1, 2, 2, 4] 3 2 : List ℚ) : Multiset ℚ) =
      (([1, 2, 2, 4] : List ℚ) : Multiset ℚ) - {2} + {3} :=
  sortedlist_region_shift_refinement [1, 2, 2, 4] 3 2 (by decide) (by decide)

/-! ### Association-list accounting lemmas (for the TimeOrder conservation
proof, C9) -/

/-- Keys of an association list are pairwise distinct (true of every embedded
Python dict). -/
def keysND {α β : Type} (l : List (α × β)) : Prop := (l.map (·.1)).Nodup

lemma keysND_nil {α β : Type} : keysND ([] : List (α × β)) := List.nodup_nil

lemma keysND_adel {α β : Type} [DecidableEq α] {l : List (α × β)} (k : α)
    (h : keysND l) : keysND (adel l k) := by
  unfold keysND adel at *
  exact List.Nodup.sublist (List.Sublist.map _ (List.filter_sublist l)) h

lemma alookup_mem {α β : Type} [DecidableEq α] {l : List (α × β)} {k : α}
    {v : β} (h : alookup l k = some v) : (k, v) ∈ l := by
  unfold alookup at h
  cases hf : l.find? (fun p => p.1 = k) with
  | none => rw [hf] at h; cases h
  | some p =>
    rw [hf] at h
    have hp := List.find?_some hf
    have hmem := List.mem_of_find?_eq_some hf
    simp at hp h
    rw [← h, ← hp]
    exact hmem

lemma alookup_isSome_of_mem {α β : Type} [DecidableEq α] {l : List (α × β)}
    {k : α} {v : β} (h : (k, v) ∈ l) : (alookup l k).isSome := by
  unfold alookup
  cases hf : l.find? (fun p => p.1 = k) with
  | none =>
    have := List.find?_eq_none.mp hf (k, v) h
    simp at this
  | some p => simp

lemma keysND_cons {α β : Type} {p : α × β} {l : List (α × β)}
    (h : keysND (p :: l)) : keysND l ∧ ∀ q ∈ l, q.1 ≠ p.1 := by
  unfold keysND at *
  rw [List.map_cons, List.nodup_cons] at h
  refine ⟨h.2, fun q hq heq => h.1 ?_⟩
  rw [← heq]
  exact List.mem_map_of_mem _ hq

lemma perm_cons_adel {α β : Type} [DecidableEq α] {l : List (α × β)} {k : α}
    {v : β} (hnd : keysND l) (h : alookup l k = some v) :
    l.Perm ((k, v) :: adel l k) := by
  induction l with
  | nil => cases h
  | cons p rest ih =>
    obtain ⟨hndr, hne⟩ := keysND_cons hnd
    by_cases hk : p.1 = k
    · have hpv : p = (k, v) := by
        unfold alookup at h
        rw [List.find?_cons_of_pos _ (by simpa using hk)] at h
        simp at h
        rw [← h, ← hk]
      subst hpv
      have hdel : adel ((k, v) :: rest) k = rest := by
        unfold adel
        rw [List.filter_cons_of_neg (by simp)]
        exact List.filter_eq_self.mpr (fun q hq => by
          simpa using hne q hq)
      rw [hdel]
    · have h' : alookup rest k = some v := by
        unfold alookup at h ⊢
        rw [List.find?_cons_of_neg _ (by simpa using hk)] at h
        exact h
      have hdel : adel (p :: rest) k = p :: adel rest k := by
        unfold adel
        rw [List.filter_cons_of_pos (by simpa using hk)]
      rw [hdel]
      exact (List.Perm.cons p (ih hndr h')).trans (List.Perm.swap _ _ _)

lemma aset_perm_absent {α β : Type} [DecidableEq α] {l : List (α × β)} {k : α}
    (v : β) (h : alookup l k = none) : (aset l k v).Perm ((k, v) :: l) := by
  unfold aset
  unfold alookup at h
  cases hf : l.find? (fun p => p.1 = k) with
  | none =>
    simp only [Option.isSome_none, Bool.false_eq_true, if_false]
    exact List.perm_append_singleton _ _
  | some p => rw [hf] at h; cases h

lemma map_replace_eq_self {α β : Type} [DecidableEq α] {l : List (α × β)}
    {k : α} (v : β) (h : ∀ q ∈ l, q.1 ≠ k) :
    l.map (fun p => if p.1 = k then (k, v) else p) = l := by
  induction l with
  | nil => rfl
  | cons p rest ih =>
    rw [List.map_cons, if_neg (h p (List.mem_cons_self _ _)),
      ih (fun q hq => h q (List.mem_cons_of_mem _ hq))]

lemma aset_perm_present {α β : Type} [DecidableEq α] {l : List (α × β)}
    {k : α} {w : β} (v : β) (hnd : keysND l) (h : alookup l k = some w) :
    ((k, w) :: aset l k v).Perm ((k, v) :: l) := by
  induction l with
  | nil => cases h
  | cons p rest ih =>
    obtain ⟨hndr, hne⟩ := keysND_cons hnd
    by_cases hk : p.1 = k
    · have hpv : p = (k, w) := by
        unfold alookup at h
        rw [List.find?_cons_of_pos _ (by simpa using hk)] at h
        simp at h
        rw [← h, ← hk]
      subst hpv
      have hset : aset ((k, w) :: rest) k v = (k, v) :: rest := by
        unfold aset
        rw [List.find?_cons_of_pos _ (by simp)]
        rw [if_pos (by simp)]
        rw [List.map_cons, if_pos rfl, map_replace_eq_self v (fun q hq => by
          simpa using hne q hq)]
      rw [hset]
      exact List.Perm.swap _ _ _
    · have h' : alookup rest k = some w := by
        unfold alookup at h ⊢
        rw [List.find?_cons_of_neg _ (by simpa using hk)] at h
        exact h
      have hfs : (rest.find? (fun q => decide (q.1 = k))).isSome = true := by
        unfold alookup at h'
        cases hf : rest.find? (fun q => decide (q.1 = k)) with
        | none => rw [hf] at h'; cases h'
        | some q => simp
      have hset : aset (p :: rest) k v = p :: aset rest k v := by
        unfold aset
        rw [List.find?_cons_of_neg _ (by simpa using hk)]
        rw [if_pos hfs, if_pos hfs]
        rw [List.map_cons, if_neg hk]
      rw [hset]
      exact ((List.Perm.swap p (k, w) _).trans ((ih hndr h').cons p)).trans
        (List.Perm.swap (k, v) p rest)

lemma alookup_map_replace {α β : Type} [DecidableEq α] {l : List (α × β)}
    {k : α} (v : β) (h : (l.find? (fun p => p.1 = k)).isSome = true) :
    alookup (l.map (fun p => if p.1 = k then (k, v) else p)) k = some v := by
  induction l with
  | nil => simp at h
  | cons p rest ih =>
    rw [List.map_cons]
    by_cases hk : p.1 = k
    · rw [if_pos hk]
      unfold alookup
      rw [List.find?_cons_of_pos _ (by simp)]
      rfl
    · rw [if_neg hk]
      unfold alookup
      rw [List.find?_cons_of_neg _ (by simpa using hk)]
      rw [List.find?_cons_of_neg _ (by simpa using hk)] at h
      exact ih h

lemma find?_none_of_isSome_false {α : Type} {p : α → Bool} {l : List α}
    (hf : (l.find? p).isSome = false) : l.find? p = none := by
  cases hx : l.find? p with
  | none => rfl
  | some q => rw [hx] at hf; simp at hf

lemma alookup_aset_self {α β : Type} [DecidableEq α] (l : List (α × β))
    (k : α) (v : β) : alookup (aset l k v) k = some v := by
  unfold aset
  cases hf : (l.find? (fun p => p.1 = k)).isSome with
  | false =>
    rw [if_neg (by simp)]
    unfold alookup
    rw [List.find?_append, find?_none_of_isSome_false hf]
    rw [List.find?_cons_of_pos _ (by simp)]
    rfl
  | true =>
    rw [if_pos rfl]
    exact alookup_map_replace v hf

lemma alookup_map_replace_ne {α β : Type} [DecidableEq α] {l : List (α × β)}
    {k k' : α} (v : β) (hk : k' ≠ k) :
    alookup (l.map (fun p => if p.1 = k then (k, v) else p)) k' = alookup l k' := by
  induction l with
  | nil => rfl
  | cons p rest ih =>
    rw [List.map_cons]
    by_cases hpk : p.1 = k
    · rw [if_pos hpk]
      unfold alookup
      rw [List.find?_cons_of_neg _ (by simp; exact Ne.symm hk),
        List.find?_cons_of_neg _ (by simp [hpk]; exact Ne.symm hk)]
      exact ih
    · rw [if_neg hpk]
      unfold alookup
      by_cases hpk' : p.1 = k'
      · rw [List.find?_cons_of_pos _ (by simpa using hpk'),
          List.find?_cons_of_pos _ (by simpa using hpk')]
      · rw [List.find?_cons_of_neg _ (by simpa using hpk'),
          List.find?_cons_of_neg _ (by simpa using hpk')]
        exact ih

lemma alookup_aset_ne {α β : Type} [DecidableEq α] (l : List (α × β))
    (k k' : α) (v : β) (hk : k' ≠ k) :
    alookup (aset l k v) k' = alookup l k' := by
  unfold aset
  cases hf : (l.find? (fun p => p.1 = k)).isSome with
  | false =>
    rw [if_neg (by simp)]
    unfold alookup
    rw [List.find?_append]
    rw [List.find?_cons_of_neg _ (by simp; exact Ne.symm hk)]
    simp
  | true =>
    rw [if_pos rfl]
    exact alookup_map_replace_ne v hk

lemma mem_aset {α β : Type} [DecidableEq α] {l : List (α × β)} {k : α}
    {v : β} {e : α × β} (h : e ∈ aset l k v) : e = (k, v) ∨ e ∈ l := by
  unfold aset at h
  split at h
  · obtain ⟨q, hq, hfq⟩ := List.mem_map.mp h
    by_cases hqk : q.1 = k
    · rw [if_pos hqk] at hfq
      exact Or.inl hfq.symm
    · rw [if_neg hqk] at hfq
      exact Or.inr (hfq ▸ hq)
  · rcases List.mem_append.mp h with h' | h'
    · exact Or.inr h'
    · simp at h'
      exact Or.inl h'

lemma keysND_aset {α β : Type} [DecidableEq α] {l : List (α × β)} (k : α)
    (v : β) (h : keysND l) : keysND (aset l k v) := by
  unfold aset
  cases hf : (l.find? (fun p => p.1 = k)).isSome with
  | false =>
    rw [if_neg (by simp)]
    unfold keysND
    rw [List.map_append, List.nodup_append]
    refine ⟨h, by simp, ?_⟩
    intro x hx hx'
    simp at hx'
    have hf' := List.find?_eq_none.mp (find?_none_of_isSome_false hf)
    obtain ⟨q, hq, hqx⟩ := List.mem_map.mp hx
    exact absurd (by simpa using (hqx.trans hx' : q.1 = k)) (by simpa using hf' q hq)
  | true =>
    rw [if_pos rfl]
    unfold keysND
    have : (l.map (fun p => if p.1 = k then (k, v) else p)).map (·.1) =
        l.map (·.1) := by
      rw [List.map_map]
      refine List.map_congr_left (fun p _ => ?_)
      by_cases hpk : p.1 = k
      · simp [hpk]
      · simp [hpk]
    rw [this]
    exact h

/-- The buffered samples of a key, as `(value, time)` pairs. -/
def bufPairs (s : TOState) (K : String) : List (ℚ × Int) :=
  ((alookup s.kv_buf K).getD []).map (fun p => (p.2, p.1))

/-- Well-formedness of the TimeOrder state: dict keys are distinct at both
levels (true of every Python dict). -/
def TOWF (s : TOState) : Prop :=
  keysND s.kv_buf ∧ ∀ e ∈ s.kv_buf, keysND e.2

lemma TOWF_init : TOWF TOState.init :=
  ⟨keysND_nil, fun e he => absurd he (List.not_mem_nil e)⟩

/-- Helper: each drain emission moves exactly one buffered entry to the
output; nothing else is created or lost, and the buffer keys stay distinct. -/
lemma drainLoop_acct (interval : Int) (key : String) (now : Int) :
    ∀ (ts : List Int) (force : Bool) (lkt : Int) (buf : List (Int × ℚ))
      (kbt : Option Int), keysND buf →
      (buf.map (fun p => (p.2, p.1))).Perm
        (((drainLoop interval key now ts force lkt buf kbt).1.map
            (fun o => (o.value, o.t))) ++
          ((drainLoop interval key now ts force lkt buf kbt).2.2.1.map
            (fun p => (p.2, p.1)))) ∧
      keysND (drainLoop interval key now ts force lkt buf kbt).2.2.1 ∧
      ∀ o ∈ (drainLoop interval key now ts force lkt buf kbt).1, o.key = key := by
  intro ts
  induction ts with
  | nil =>
    intro force lkt buf kbt hnd
    refine ⟨by simp [drainLoop], hnd, by simp [drainLoop]⟩
  | cons bt rest ih =>
    intro force lkt buf kbt hnd
    rw [drainLoop]
    split
    · cases hl : alookup buf bt with
      | some v =>
        simp only [hl]
        have hperm := perm_cons_adel hnd hl
        have hnd' := keysND_adel bt hnd
        obtain ⟨ihp, ihnd, ihkey⟩ := ih false bt (adel buf bt) (some now) hnd'
        refine ⟨?_, ihnd, ?_⟩
        · have h1 : (buf.map (fun p => (p.2, p.1))).Perm
              ((v, bt) :: ((adel buf bt).map (fun p => (p.2, p.1)))) :=
            hperm.map _
          exact h1.trans (ihp.cons (v, bt))
        · intro o ho
          rcases List.mem_cons.mp ho with rfl | ho'
          · rfl
          · exact ihkey o ho'
      | none =>
        simp only [hl]
        exact ⟨by simp, hnd, by simp⟩
    · exact ⟨by simp, hnd, by simp⟩

lemma alookup_adel_ne {α β : Type} [DecidableEq α] (l : List (α × β))
    (k k' : α) (hk : k' ≠ k) : alookup (adel l k) k' = alookup l k' := by
  induction l with
  | nil => rfl
  | cons p rest ih =>
    unfold adel at *
    by_cases hpk : p.1 = k
    · rw [List.filter_cons_of_neg (by simpa using hpk)]
      unfold alookup
      rw [List.find?_cons_of_neg _ (by
        simp only [decide_eq_true_eq]
        intro h
        exact hk (by rw [← h]; exact hpk))]
      exact ih
    · rw [List.filter_cons_of_pos (by simpa using hpk)]
      unfold alookup
      by_cases hpk' : p.1 = k'
      · rw [List.find?_cons_of_pos _ (by simpa using hpk'),
          List.find?_cons_of_pos _ (by simpa using hpk')]
      · rw [List.find?_cons_of_neg _ (by simpa using hpk'),
          List.find?_cons_of_neg _ (by simpa using hpk')]
        exact ih

lemma alookup_eq_of_mem {α β : Type} [DecidableEq α] {l : List (α × β)}
    {p : α × β} (hnd : keysND l) (hp : p ∈ l) : alookup l p.1 = some p.2 := by
  induction l with
  | nil => cases hp
  | cons q rest ih =>
    obtain ⟨hndr, hne⟩ := keysND_cons hnd
    rcases List.mem_cons.mp hp with rfl | hp'
    · unfold alookup
      rw [List.find?_cons_of_pos _ (by simp)]
      rfl
    · have hpq : p.1 ≠ q.1 := hne p hp'
      unfold alookup
      rw [List.find?_cons_of_neg _ (by simpa using fun h => hpq h.symm)]
      exact ih hndr hp'

/-- Helper: flushing a buffer along any permutation of its (distinct) keys
recovers exactly the buffered entries. -/
lemma flush_perm (key : String) :
    ∀ (ts : List Int) (buf : List (Int × ℚ)), keysND buf →
      ts.Perm (buf.map (·.1)) →
      ((ts.filterMap (fun bt => (alookup buf bt).map
          (fun v => TOOut.mk key v bt))).map (fun o => (o.value, o.t))).Perm
        (buf.map (fun p => (p.2, p.1))) := by
  intro ts
  induction ts with
  | nil =>
    intro buf _ hperm
    have hkeys : buf.map (·.1) = [] := hperm.symm.eq_nil
    have hbuf : buf = [] := List.map_eq_nil.mp hkeys
    subst hbuf
    simp
  | cons bt rest ih =>
    intro buf hnd hperm
    have hbt : bt ∈ buf.map (·.1) := hperm.mem_iff.mp (List.mem_cons_self _ _)
    obtain ⟨p, hpmem, hpk⟩ := List.mem_map.mp hbt
    have hl : alookup buf bt = some p.2 := hpk ▸ alookup_eq_of_mem hnd hpmem
    have hbufperm : buf.Perm ((bt, p.2) :: adel buf bt) := perm_cons_adel hnd hl
    have hrest : rest.Perm ((adel buf bt).map (·.1)) := by
      have h1 : (bt :: rest).Perm (((bt, p.2) :: adel buf bt).map (·.1)) :=
        hperm.trans (hbufperm.map _)
      exact h1.cons_inv
    have hcongr : rest.filterMap (fun x => (alookup buf x).map
        (fun v => TOOut.mk key v x)) =
        rest.filterMap (fun x => (alookup (adel buf bt) x).map
          (fun v => TOOut.mk key v x)) := by
      refine List.filterMap_congr (fun x hx => ?_)
      have hxk : x ≠ bt := by
        intro heq
        have hx' : x ∈ (adel buf bt).map (·.1) := hrest.mem_iff.mp hx
        obtain ⟨q, hq, hqk⟩ := List.mem_map.mp hx'
        unfold adel at hq
        have hqf := List.of_mem_filter hq
        simp at hqf
        exact hqf (hqk.trans heq)
      rw [alookup_adel_ne buf bt x hxk]
    rw [List.filterMap_cons, hl]
    simp only [Option.map_some']
    rw [List.map_cons, hcongr]
    have hrec := ih (adel buf bt) (keysND_adel bt hnd) hrest
    have h2 := (hbufperm.map (fun q => (q.2, q.1))).symm
    have hfinal : ((bt, p.2) :: adel buf bt).map
        (fun q => (q.2, q.1)) = (p.2, bt) :: (adel buf bt).map (fun q => (q.2, q.1)) := rfl
    rw [hfinal] at h2
    exact (hrec.cons (p.2, bt)).trans h2

lemma toFinalDrain_chunk_keys (k0 : String) (buf0 : List (Int × ℚ))
    (ts : List Int) :
    ∀ o ∈ ts.filterMap (fun bt => (alookup buf0 bt).map
        (fun v => TOOut.mk k0 v bt)), o.key = k0 := by
  intro o ho
  obtain ⟨bt, _, hbt⟩ := List.mem_filterMap.mp ho
  cases hl : alookup buf0 bt with
  | none => rw [hl] at hbt; cases hbt
  | some v =>
    rw [hl] at hbt
    simp at hbt
    rw [← hbt]

lemma toFinalDrain_keys :
    ∀ (kvb : List (String × List (Int × ℚ))), ∀ o ∈ toFinalDrain kvb,
      o.key ∈ kvb.map (·.1) := by
  intro kvb
  induction kvb with
  | nil =>
    intro o ho
    cases ho
  | cons e rest ih =>
    intro o ho
    rw [toFinalDrain] at ho
    rcases List.mem_append.mp ho with h1 | h1
    · rw [List.map_cons, toFinalDrain_chunk_keys e.1 e.2 _ o h1]
      exact List.mem_cons_self _ _
    · exact List.mem_cons_of_mem _ (ih o h1)

/-- Helper: the exhaustion drain flushes, per key, exactly the buffered
entries. -/
lemma finalDrain_acct (K : String) :
    ∀ (kvb : List (String × List (Int × ℚ))), keysND kvb →
      (∀ e ∈ kvb, keysND e.2) →
      (((toFinalDrain kvb).filter (fun o => decide (o.key = K))).map
          (fun o => (o.value, o.t))).Perm
        (((alookup kvb K).getD []).map (fun p => (p.2, p.1))) := by
  intro kvb
  induction kvb with
  | nil =>
    intro _ _
    simp [toFinalDrain, alookup]
  | cons e rest ih =>
    intro hnd hin
    obtain ⟨hndr, hne⟩ := keysND_cons hnd
    rw [toFinalDrain]
    rw [List.filter_append, List.map_append]
    by_cases hK : e.1 = K
    · have hflt : (((e.2.map (·.1)).insertionSort (· ≤ ·)).filterMap
          (fun bt => (alookup e.2 bt).map (fun v => TOOut.mk e.1 v bt))).filter
            (fun o => decide (o.key = K)) =
          ((e.2.map (·.1)).insertionSort (· ≤ ·)).filterMap
            (fun bt => (alookup e.2 bt).map (fun v => TOOut.mk e.1 v bt)) :=
        List.filter_eq_self.mpr (fun o ho => by
          simp [toFinalDrain_chunk_keys e.1 e.2 _ o ho, hK])
      have hrest : ((toFinalDrain rest).filter
          (fun o => decide (o.key = K))) = [] :=
        List.filter_eq_nil.mpr (fun o ho => by
          simp only [decide_eq_true_eq]
          intro hoK
          obtain ⟨q, hq, hqk⟩ := List.mem_map.mp (toFinalDrain_keys rest o ho)
          exact hne q hq (by rw [hqk, hoK, hK]))
      rw [hflt, hrest, List.map_nil, List.append_nil]
      have hl : alookup (e :: rest) K = some e.2 := by
        unfold alookup
        rw [List.find?_cons_of_pos _ (by simpa using hK)]
        rfl
      rw [hl]
      exact flush_perm e.1 ((e.2.map (·.1)).insertionSort (· ≤ ·)) e.2
        (hin e (List.mem_cons_self _ _)) (List.perm_insertionSort _ _)
    · have hflt : (((e.2.map (·.1)).insertionSort (· ≤ ·)).filterMap
          (fun bt => (alookup e.2 bt).map (fun v => TOOut.mk e.1 v bt))).filter
            (fun o => decide (o.key = K)) = [] :=
        List.filter_eq_nil.mpr (fun o ho => by
          simp only [decide_eq_true_eq]
          intro hoK
          exact hK (by rw [← toFinalDrain_chunk_keys e.1 e.2 _ o ho, hoK]))
      rw [hflt, List.map_nil, List.nil_append]
      have hl : alookup (e :: rest) K = alookup rest K := by
        unfold alookup
        rw [List.find?_cons_of_neg _ (by simpa using hK)]
      rw [hl]
      exact ih hndr (fun q hq => hin q (List.mem_cons_of_mem _ hq))

lemma TOWF_mk_aset {s : TOState} (key : String) (B : List (Int × ℚ))
    (L T : List (String × Option Int)) (hwf : TOWF s) (hB : keysND B) :
    TOWF ⟨L, aset s.kv_buf key B, T⟩ := by
  refine ⟨keysND_aset _ _ hwf.1, fun e he => ?_⟩
  rcases mem_aset he with h | h
  · rw [h]
    exact hB
  · exact hwf.2 e h

/-- Helper: one `_handle_kvt` call conserves samples for its own key — the
incoming sample plus the old buffer equals emissions plus discards plus the
new buffer — keeps the state well-formed, stamps every emission and discard
with its own key, and leaves other keys' buffers untouched. -/
lemma handleKvt_acct (interval timeout : Int) (s : TOState) (key : String)
    (val : ℚ) (t now : Int) (hwf : TOWF s) :
    ((val, t) ::ₘ ((bufPairs s key : List (ℚ × Int)) : Multiset (ℚ × Int))) =
      ↑((handleKvt interval timeout s key val t now).2.1.map
          (fun o => (o.value, o.t))) +
      ↑((handleKvt interval timeout s key val t now).2.2.map
          (fun d => (d.value, d.t))) +
      ↑(bufPairs (handleKvt interval timeout s key val t now).1 key) ∧
    TOWF (handleKvt interval timeout s key val t now).1 ∧
    (∀ o ∈ (handleKvt interval timeout s key val t now).2.1, o.key = key) ∧
    (∀ d ∈ (handleKvt interval timeout s key val t now).2.2, d.key = key) ∧
    (∀ K, K ≠ key →
      bufPairs (handleKvt interval timeout s key val t now).1 K = bufPairs s K) := by
  have hbuf0nd : keysND ((alookup s.kv_buf key).getD []) := by
    cases hl : alookup s.kv_buf key with
    | none => exact keysND_nil
    | some b => exact hwf.2 (key, b) (alookup_mem hl)
  unfold handleKvt
  dsimp only
  by_cases hFast : (match (alookup s.last_key_time key).getD none with
      | none => true
      | some lkt => decide (t = lkt + interval)) = true
  · rw [if_pos hFast]
    obtain ⟨hdp, hdnd, hdkey⟩ := drainLoop_acct interval key now
      ((((alookup s.kv_buf key).getD []).map (·.1)).insertionSort (· ≤ ·))
      false t ((alookup s.kv_buf key).getD []) (some now) hbuf0nd
    refine ⟨?_, ?_, ?_, by simp, ?_⟩
    · unfold bufPairs
      dsimp only
      rw [alookup_aset_self]
      simp only [Option.getD_some, List.map_cons, List.map_nil,
        Multiset.coe_nil, ← Multiset.cons_coe]
      have hM : ((↑(((alookup s.kv_buf key).getD []).map
          (fun p => (p.2, p.1)))) : Multiset (ℚ × Int)) =
          ↑((drainLoop interval key now
              ((((alookup s.kv_buf key).getD []).map (·.1)).insertionSort (· ≤ ·))
              false t ((alookup s.kv_buf key).getD []) (some now)).1.map
                (fun o => (o.value, o.t))) +
          ↑((drainLoop interval key now
              ((((alookup s.kv_buf key).getD []).map (·.1)).insertionSort (· ≤ ·))
              false t ((alookup s.kv_buf key).getD []) (some now)).2.2.1.map
                (fun p => (p.2, p.1))) := by
        rw [Multiset.coe_add]
        exact Multiset.coe_eq_coe.mpr hdp
      rw [hM]
      simp only [← Multiset.singleton_add]
      abel
    · exact TOWF_mk_aset key _ _ _ hwf hdnd
    · intro o ho
      rcases List.mem_cons.mp ho with rfl | ho'
      · rfl
      · exact hdkey o ho'
    · intro K hK
      unfold bufPairs
      dsimp only
      rw [alookup_aset_ne _ _ _ _ hK]
  · rw [if_neg hFast]
    cases hlkt : (alookup s.last_key_time key).getD none with
    | none =>
      rw [hlkt] at hFast
      simp at hFast
    | some lkt =>
      dsimp only
      by_cases hgt : t > lkt + interval
      · rw [if_pos hgt]
        have hnd1 : keysND (aset ((alookup s.kv_buf key).getD []) t val) :=
          keysND_aset _ _ hbuf0nd
        by_cases hforce : (((alookup s.kv_buf_timer key).getD none).elim false
            (fun k => decide (k + timeout ≤ now))) = true
        · rw [if_pos hforce]
          obtain ⟨hdp, hdnd, hdkey⟩ := drainLoop_acct interval key now
            (((aset ((alookup s.kv_buf key).getD []) t val).map
                (·.1)).insertionSort (· ≤ ·))
            true lkt (aset ((alookup s.kv_buf key).getD []) t val)
            ((alookup s.kv_buf_timer key).getD none) hnd1
          refine ⟨?_, TOWF_mk_aset key _ _ _ hwf hdnd, hdkey, ?_, ?_⟩
          · unfold bufPairs
            dsimp only
            rw [alookup_aset_self]
            simp only [Option.getD_some]
            have hM1 : ((↑((aset ((alookup s.kv_buf key).getD []) t val).map
                (fun p => (p.2, p.1)))) : Multiset (ℚ × Int)) =
                ↑((drainLoop interval key now
                    (((aset ((alookup s.kv_buf key).getD []) t val).map
                        (·.1)).insertionSort (· ≤ ·))
                    true lkt (aset ((alookup s.kv_buf key).getD []) t val)
                    ((alookup s.kv_buf_timer key).getD none)).1.map
                      (fun o => (o.value, o.t))) +
                ↑((drainLoop interval key now
                    (((aset ((alookup s.kv_buf key).getD []) t val).map
                        (·.1)).insertionSort (· ≤ ·))
                    true lkt (aset ((alookup s.kv_buf key).getD []) t val)
                    ((alookup s.kv_buf_timer key).getD none)).2.2.1.map
                      (fun p => (p.2, p.1))) := by
              rw [Multiset.coe_add]
              exact Multiset.coe_eq_coe.mpr hdp
            cases hovw : alookup ((alookup s.kv_buf key).getD []) t with
            | some oldv =>
              have hpm : ((t, oldv) :: aset ((alookup s.kv_buf key).getD []) t val).Perm
                  ((t, val) :: (alookup s.kv_buf key).getD []) :=
                aset_perm_present val hbuf0nd hovw
              have hMM : ((oldv, t) ::ₘ
                  (↑((aset ((alookup s.kv_buf key).getD []) t val).map
                    (fun p => (p.2, p.1))) : Multiset (ℚ × Int))) =
                  (val, t) ::ₘ ↑(((alookup s.kv_buf key).getD []).map
                    (fun p => (p.2, p.1))) := by
                have hpm2 := hpm.map (fun p : Int × ℚ => (p.2, p.1))
                simp only [List.map_cons] at hpm2
                rw [Multiset.cons_coe, Multiset.cons_coe]
                exact Multiset.coe_eq_coe.mpr hpm2
              rw [← hMM, hM1]
              simp only [List.map_cons, List.map_nil, Multiset.coe_nil,
                ← Multiset.cons_coe, ← Multiset.singleton_add]
              abel
            | none =>
              have hpm : (aset ((alookup s.kv_buf key).getD []) t val).Perm
                  ((t, val) :: (alookup s.kv_buf key).getD []) :=
                aset_perm_absent val hovw
              have hMM : ((↑((aset ((alookup s.kv_buf key).getD []) t val).map
                  (fun p => (p.2, p.1))) : Multiset (ℚ × Int))) =
                  (val, t) ::ₘ ↑(((alookup s.kv_buf key).getD []).map
                    (fun p => (p.2, p.1))) := by
                have hpm2 := hpm.map (fun p : Int × ℚ => (p.2, p.1))
                simp only [List.map_cons] at hpm2
                rw [Multiset.cons_coe]
                exact Multiset.coe_eq_coe.mpr hpm2
              rw [← hMM, hM1]
              simp only [List.map_cons, List.map_nil, Multiset.coe_nil,
                ← Multiset.cons_coe, ← Multiset.singleton_add]
              abel
          · cases hovw : alookup ((alookup s.kv_buf key).getD []) t with
            | some oldv => intro d hd; simp at hd; rw [hd]
            | none => intro d hd; simp at hd
          · intro K hK
            unfold bufPairs
            dsimp only
            rw [alookup_aset_ne _ _ _ _ hK]
        · rw [if_neg hforce]
          refine ⟨?_, TOWF_mk_aset key _ _ _ hwf hnd1, by simp, ?_, ?_⟩
          · unfold bufPairs
            dsimp only
            rw [alookup_aset_self]
            simp only [Option.getD_some, List.map_nil, Multiset.coe_nil]
            cases hovw : alookup ((alookup s.kv_buf key).getD []) t with
            | some oldv =>
              have hpm : ((t, oldv) :: aset ((alookup s.kv_buf key).getD []) t val).Perm
                  ((t, val) :: (alookup s.kv_buf key).getD []) :=
                aset_perm_present val hbuf0nd hovw
              have hMM : ((oldv, t) ::ₘ
                  (↑((aset ((alookup s.kv_buf key).getD []) t val).map
                    (fun p => (p.2, p.1))) : Multiset (ℚ × Int))) =
                  (val, t) ::ₘ ↑(((alookup s.kv_buf key).getD []).map
                    (fun p => (p.2, p.1))) := by
                have hpm2 := hpm.map (fun p : Int × ℚ => (p.2, p.1))
                simp only [List.map_cons] at hpm2
                rw [Multiset.cons_coe, Multiset.cons_coe]
                exact Multiset.coe_eq_coe.mpr hpm2
              rw [← hMM]
              simp only [List.map_cons, List.map_nil, Multiset.coe_nil,
                ← Multiset.cons_coe, ← Multiset.singleton_add]
              abel
            | none =>
              have hpm : (aset ((alookup s.kv_buf key).getD []) t val).Perm
                  ((t, val) :: (alookup s.kv_buf key).getD []) :=
                aset_perm_absent val hovw
              have hMM : ((↑((aset ((alookup s.kv_buf key).getD []) t val).map
                  (fun p => (p.2, p.1))) : Multiset (ℚ × Int))) =
                  (val, t) ::ₘ ↑(((alookup s.kv_buf key).getD []).map
                    (fun p => (p.2, p.1))) := by
                have hpm2 := hpm.map (fun p : Int × ℚ => (p.2, p.1))
                simp only [List.map_cons] at hpm2
                rw [Multiset.cons_coe]
                exact Multiset.coe_eq_coe.mpr hpm2
              rw [← hMM]
              simp only [List.map_cons, List.map_nil, Multiset.coe_nil,
                ← Multiset.cons_coe, ← Multiset.singleton_add]
              abel
          · cases hovw : alookup ((alookup s.kv_buf key).getD []) t with
            | some oldv => intro d hd; simp at hd; rw [hd]
            | none => intro d hd; simp at hd
          · intro K hK
            unfold bufPairs
            dsimp only
            rw [alookup_aset_ne _ _ _ _ hK]
      · rw [if_neg hgt]
        by_cases hforce : (((alookup s.kv_buf_timer key).getD none).elim false
            (fun k => decide (k + timeout ≤ now))) = true
        · rw [if_pos hforce]
          obtain ⟨hdp, hdnd, hdkey⟩ := drainLoop_acct interval key now
            ((((alookup s.kv_buf key).getD []).map (·.1)).insertionSort (· ≤ ·))
            true lkt ((alookup s.kv_buf key).getD [])
            ((alookup s.kv_buf_timer key).getD none) hbuf0nd
          refine ⟨?_, TOWF_mk_aset key _ _ _ hwf hdnd, hdkey, by simp, ?_⟩
          · unfold bufPairs
            dsimp only
            rw [alookup_aset_self]
            simp only [Option.getD_some, List.map_cons, List.map_nil,
              Multiset.coe_nil]
            have hM : ((↑(((alookup s.kv_buf key).getD []).map
                (fun p => (p.2, p.1)))) : Multiset (ℚ × Int)) =
                ↑((drainLoop interval key now
                    ((((alookup s.kv_buf key).getD []).map
                        (·.1)).insertionSort (· ≤ ·))
                    true lkt ((alookup s.kv_buf key).getD [])
                    ((alookup s.kv_buf_timer key).getD none)).1.map
                      (fun o => (o.value, o.t))) +
                ↑((drainLoop interval key now
                    ((((alookup s.kv_buf key).getD []).map
                        (·.1)).insertionSort (· ≤ ·))
                    true lkt ((alookup s.kv_buf key).getD [])
                    ((alookup s.kv_buf_timer key).getD none)).2.2.1.map
                      (fun p => (p.2, p.1))) := by
              rw [Multiset.coe_add]
              exact Multiset.coe_eq_coe.mpr hdp
            rw [hM]
            simp only [← Multiset.cons_coe, ← Multiset.singleton_add]
            abel
          · intro K hK
            unfold bufPairs
            dsimp only
            rw [alookup_aset_ne _ _ _ _ hK]
        · rw [if_neg hforce]
          refine ⟨?_, hwf, by simp, ?_, fun K _ => rfl⟩
          · simp only [List.map_nil, Multiset.coe_nil, List.map_cons,
              ← Multiset.cons_coe, ← Multiset.singleton_add]
            abel
          · intro d hd
            simp at hd
            rw [hd]

lemma multiset_shuffle (p : ℚ × Int) (I S Sn Ao Ad Bo Bd : Multiset (ℚ × Int))
    (h1 : p ::ₘ S = Ao + Ad + Sn) (h2 : I + Sn = Bo + Bd) :
    (p ::ₘ I) + S = (Ao + Bo) + (Ad + Bd) := by
  have e1 : (p ::ₘ I) + S = I + (p ::ₘ S) := by
    simp only [← Multiset.singleton_add]
    abel
  rw [e1, h1]
  have e2 : I + (Ao + Ad + Sn) = (Ao + Ad) + (I + Sn) := by abel
  rw [e2, h2]
  abel

/-- Helper: TimeOrder run-level conservation.  From any well-formed state,
the per-key samples seen during the run plus the samples already buffered
equal, as multisets of `(value, time)` pairs, the per-key emissions plus the
per-key discards (late drops and same-time overwrites). -/
lemma toRun_acct (interval timeout : Int) (K : String) :
    ∀ (xs : List TOIn) (s : TOState), TOWF s →
      ((↑((xs.filter (fun x => decide (x.key = K))).map
          (fun x => (x.value, x.t))) : Multiset (ℚ × Int)) +
        ↑(bufPairs s K) =
      ↑(((toRun interval timeout s xs).2.1.filter
          (fun o => decide (o.key = K))).map (fun o => (o.value, o.t))) +
      ↑(((toRun interval timeout s xs).2.2.filter
          (fun d => decide (d.key = K))).map (fun d => (d.value, d.t)))) := by
  intro xs
  induction xs with
  | nil =>
    intro s hwf
    rw [toRun]
    dsimp only
    rw [List.filter_nil, List.map_nil, List.filter_nil, List.map_nil,
      Multiset.coe_nil, zero_add, add_zero]
    exact (Multiset.coe_eq_coe.mpr (finalDrain_acct K s.kv_buf hwf.1 hwf.2)).symm
  | cons x xs ih =>
    intro s hwf
    rw [toRun]
    dsimp only
    obtain ⟨hacct, hwf', houtk, hdisck, hframe⟩ :=
      handleKvt_acct interval timeout s x.key x.value x.t x.now hwf
    have hIH := ih (handleKvt interval timeout s x.key x.value x.t x.now).1 hwf'
    by_cases hxK : x.key = K
    · subst hxK
      rw [List.filter_cons_of_pos (by simp)]
      rw [List.filter_append, List.filter_append]
      have hofilt : (handleKvt interval timeout s x.key x.value x.t
          x.now).2.1.filter (fun o => decide (o.key = x.key)) =
          (handleKvt interval timeout s x.key x.value x.t x.now).2.1 :=
        List.filter_eq_self.mpr (fun o ho => by
          simp [houtk o ho])
      have hdfilt : (handleKvt interval timeout s x.key x.value x.t
          x.now).2.2.filter (fun d => decide (d.key = x.key)) =
          (handleKvt interval timeout s x.key x.value x.t x.now).2.2 :=
        List.filter_eq_self.mpr (fun d hd => by
          simp [hdisck d hd])
      rw [hofilt, hdfilt, List.map_cons, List.map_append, List.map_append,
        ← Multiset.cons_coe, ← Multiset.coe_add, ← Multiset.coe_add]
      exact multiset_shuffle (x.value, x.t) _ _ _ _ _ _ _ hacct hIH
    · rw [List.filter_cons_of_neg (by simpa using hxK)]
      rw [List.filter_append, List.filter_append]
      have hofilt : (handleKvt interval timeout s x.key x.value x.t
          x.now).2.1.filter (fun o => decide (o.key = K)) = [] :=
        List.filter_eq_nil.mpr (fun o ho => by
          simp only [decide_eq_true_eq]
          rw [houtk o ho]
          exact hxK)
      have hdfilt : (handleKvt interval timeout s x.key x.value x.t
          x.now).2.2.filter (fun d => decide (d.key = K)) = [] :=
        List.filter_eq_nil.mpr (fun d hd => by
          simp only [decide_eq_true_eq]
          rw [hdisck d hd]
          exact hxK)
      rw [hofilt, hdfilt, List.nil_append, List.nil_append]
      rw [← hframe K (fun h => hxK h.symm)]
      exact hIH

/-- C9.  TimeOrder conservation.  The claimed property — that the output
multiset equals the input multiset restricted, per key, to times at or above
the first emitted time for that key — fails: a sample that is neither on the
expected `last + interval` grid nor strictly beyond it is dropped even when
its time exceeds the first emitted time, and a buffered sample is silently
lost when a later arrival carries the same timestamp.  With interval 10 and a
large timeout, the inputs `(k,1,10), (k,2,20), (k,3,15)` emit exactly the
times 10 and 20 (first emitted time 10), yet the sample `(3,15)` — whose time
15 is at or above 10 — appears in the restricted input multiset and not in
the output. -/
theorem timeorder_restriction_counterexample :
    ((toRun 10 1000 TOState.init
        [⟨"k", 1, 10, 0⟩, ⟨"k", 2, 20, 0⟩, ⟨"k", 3, 15, 0⟩]).2.1.map
          (fun o => o.t)) = [10, 20] ∧
    ¬ ((↑((toRun 10 1000 TOState.init
          [⟨"k", 1, 10, 0⟩, ⟨"k", 2, 20, 0⟩, ⟨"k", 3, 15, 0⟩]).2.1.map
            (fun o => (o.value, o.t))) : Multiset (ℚ × Int)) =
        ↑(([(⟨"k", 1, 10, 0⟩ : TOIn), ⟨"k", 2, 20, 0⟩,
            ⟨"k", 3, 15, 0⟩].filter (fun x => decide (10 ≤ x.t))).map
              (fun x => (x.value, x.t)))) := by
  constructor
  · rfl
  · decide

/-- C9 (amended).  TimeOrder conservation, corrected form: over a full run
from the initial state, per key, the multiset of input `(value, time)` pairs
equals the multiset of emitted pairs plus the multiset of discarded pairs,
where a discard is either a drop of a sample at or below the key's watermark
or a buffered sample overwritten by a later arrival with the same time.
Nothing is created or lost by the reorder buffer, the wall-clock force drain,
or the exhaustion drain. -/
theorem timeorder_conservation_amended (interval timeout : Int) (K : String)
    (xs : List TOIn) :
    ((↑((xs.filter (fun x => decide (x.key = K))).map
        (fun x => (x.value, x.t))) : Multiset (ℚ × Int)) =
      ↑(((toRun interval timeout TOState.init xs).2.1.filter
          (fun o => decide (o.key = K))).map (fun o => (o.value, o.t))) +
      ↑(((toRun interval timeout TOState.init xs).2.2.filter
          (fun d => decide (d.key = K))).map (fun d => (d.value, d.t)))) := by
  have h := toRun_acct interval timeout K xs TOState.init TOWF_init
  rw [show bufPairs TOState.init K = [] from rfl] at h
  rw [Multiset.coe_nil, add_zero] at h
  exact h

/-! ### The AggSum watermark invariant -/

/-- An optional watermark bounds a time: if set, it is at most `t`. -/
def wmLE (o : Option Int) (t : Int) : Prop :=
  ∀ w, o = some w → w ≤ t

/-- Watermark growth: a set watermark stays set and does not decrease. -/
def optLE (o o' : Option Int) : Prop :=
  ∀ w, o = some w → ∃ w', o' = some w' ∧ w ≤ w'

lemma optLE_refl (o : Option Int) : optLE o o :=
  fun w h => ⟨w, h, le_refl w⟩

lemma optLE_trans {a b c : Option Int} (h1 : optLE a b) (h2 : optLE b c) :
    optLE a c := by
  intro w hw
  obtain ⟨w1, hw1, hle1⟩ := h1 w hw
  obtain ⟨w2, hw2, hle2⟩ := h2 w1 hw1
  exact ⟨w2, hw2, le_trans hle1 hle2⟩

/-- The `AggSum` state invariant: every live bucket's time is at or above its
group's watermark. -/
def AggInv (s : AggState) : Prop :=
  ∀ p ∈ s.agg_by_seen, wmLE (oldKey s p.1.1 p.1.2.1) p.1.2.2

/-- The contract of one state transition of `AggSum` (one input sample, one
sweep pop, or a composition): the invariant is re-established, watermarks
only rise, every finalization event's time lies between the group's old and
new watermark, and the events of each group come out in non-decreasing time
order. -/
def AggStepOK (s s' : AggState) (evs : List AggEv) : Prop :=
  AggInv s' ∧
  (∀ e g, optLE (oldKey s e g) (oldKey s' e g)) ∧
  (∀ ev ∈ evs, wmLE (oldKey s ev.e ev.g) ev.t) ∧
  (∀ ev ∈ evs, ∃ w, oldKey s' ev.e ev.g = some w ∧ ev.t ≤ w) ∧
  (∀ e g, List.Pairwise (· ≤ ·)
    ((evs.filter (fun ev => decide (ev.e = e ∧ ev.g = g))).map AggEv.t))

lemma AggStepOK_refl {s : AggState} (h : AggInv s) : AggStepOK s s [] :=
  ⟨h, fun _ _ => optLE_refl _,
   fun _ hev => absurd hev (List.not_mem_nil _),
   fun _ hev => absurd hev (List.not_mem_nil _),
   fun _ _ => by simp⟩

lemma AggStepOK_congr {s s' : AggState} {evs evs' : List AggEv}
    (h : evs = evs') (hok : AggStepOK s s' evs) : AggStepOK s s' evs' :=
  h ▸ hok

/-- Transitions compose: run one contract-satisfying transition after
another and concatenate the events. -/
lemma AggStepOK_comp {s s1 s2 : AggState} {evs1 evs2 : List AggEv}
    (h1 : AggStepOK s s1 evs1) (h2 : AggStepOK s1 s2 evs2) :
    AggStepOK s s2 (evs1 ++ evs2) := by
  obtain ⟨hi1, hm1, hlo1, hhi1, hsort1⟩ := h1
  obtain ⟨hi2, hm2, hlo2, hhi2, hsort2⟩ := h2
  refine ⟨hi2, fun e g => optLE_trans (hm1 e g) (hm2 e g), ?_, ?_, ?_⟩
  · intro ev hev
    rcases List.mem_append.mp hev with h | h
    · exact hlo1 ev h
    · intro w hw
      obtain ⟨w1, hw1, hle1⟩ := hm1 ev.e ev.g w hw
      exact le_trans hle1 (hlo2 ev h w1 hw1)
  · intro ev hev
    rcases List.mem_append.mp hev with h | h
    · obtain ⟨w1, hw1, hle1⟩ := hhi1 ev h
      obtain ⟨w2, hw2, hle2⟩ := hm2 ev.e ev.g w1 hw1
      exact ⟨w2, hw2, le_trans hle1 hle2⟩
    · exact hhi2 ev h
  · intro e g
    rw [List.filter_append, List.map_append, List.pairwise_append]
    refine ⟨hsort1 e g, hsort2 e g, ?_⟩
    intro a ha b hb
    obtain ⟨eva, hmema, heva⟩ := List.mem_map.mp ha
    obtain ⟨evb, hmemb, hevb⟩ := List.mem_map.mp hb
    obtain ⟨hmema', hfa⟩ := List.mem_filter.mp hmema
    obtain ⟨hmemb', hfb⟩ := List.mem_filter.mp hmemb
    obtain ⟨hae, hag⟩ := of_decide_eq_true hfa
    obtain ⟨hbe, hbg⟩ := of_decide_eq_true hfb
    obtain ⟨w, hw, hle⟩ := hhi1 eva hmema'
    have hlo := hlo2 evb hmemb' w (by rw [hbe, hbg, ← hae, ← hag]; exact hw)
    rw [← heva, ← hevb]
    exact le_trans hle hlo

lemma isOld_false_wmLE {s : AggState} {e : Nat} {g : GroupId} {t : Int}
    (h : isOld s e g t = false) : wmLE (oldKey s e g) t := by
  intro w hw
  unfold isOld at h
  rw [hw] at h
  simp at h
  omega

/-- `_update_oldkeys` on the touched group: the new watermark is set, at
least `t`, and at least the old watermark. -/
lemma updateOldkeys_self (ok : List ((Nat × GroupId) × Int)) (e : Nat)
    (g : GroupId) (t : Int) :
    ∃ w', alookup (updateOldkeys ok e g t) (e, g) = some w' ∧ t ≤ w' ∧
      (∀ w, alookup ok (e, g) = some w → w ≤ w') := by
  unfold updateOldkeys
  cases h : alookup ok (e, g) with
  | none =>
    dsimp only
    refine ⟨t, alookup_aset_self _ _ _, le_refl t, ?_⟩
    intro w hw
    cases hw
  | some w =>
    dsimp only
    by_cases hgt : t > w
    · rw [if_pos hgt]
      refine ⟨t, alookup_aset_self _ _ _, le_refl t, ?_⟩
      intro w0 hw0
      injection hw0 with hw0
      omega
    · rw [if_neg hgt]
      refine ⟨w, h, by omega, ?_⟩
      intro w0 hw0
      injection hw0 with hw0
      omega

/-- `_update_oldkeys` leaves other groups' watermarks unchanged. -/
lemma updateOldkeys_ne (ok : List ((Nat × GroupId) × Int)) (e : Nat)
    (g : GroupId) (t : Int) (k : Nat × GroupId) (hk : k ≠ (e, g)) :
    alookup (updateOldkeys ok e g t) k = alookup ok k := by
  unfold updateOldkeys
  cases h : alookup ok (e, g) with
  | none => exact alookup_aset_ne _ _ _ _ hk
  | some w =>
    dsimp only
    by_cases hgt : t > w
    · rw [if_pos hgt]
      exact alookup_aset_ne _ _ _ _ hk
    · rw [if_neg hgt]

lemma updateOldkeys_optLE (ok : List ((Nat × GroupId) × Int)) (e : Nat)
    (g : GroupId) (t : Int) (k : Nat × GroupId) :
    optLE (alookup ok k) (alookup (updateOldkeys ok e g t) k) := by
  by_cases hk : k = (e, g)
  · subst hk
    intro w hw
    obtain ⟨w', hw', _, hmax⟩ := updateOldkeys_self ok e g t
    exact ⟨w', hw', hmax w hw⟩
  · rw [updateOldkeys_ne ok e g t k hk]
    exact optLE_refl _

/-- Surviving buckets of `_expire_oldtimes` were already present, and the
touched group keeps only times at or above `max_t`. -/
lemma expireOldtimes_mem {dp : Bool} {base : List (AggKey × Agginfo)}
    {e : Nat} {g : GroupId} {maxT : Int} {p : AggKey × Agginfo}
    (h : p ∈ (expireOldtimes dp base e g maxT).1) :
    p ∈ base ∧ ¬(p.1.1 = e ∧ p.1.2.1 = g ∧ p.1.2.2 < maxT) := by
  unfold expireOldtimes at h
  dsimp only at h
  obtain ⟨hmem, hflt⟩ := List.mem_filter.mp h
  refine ⟨hmem, ?_⟩
  intro hc
  obtain ⟨h1, h2, h3⟩ := hc
  simp [h1, h2, h3] at hflt

/-- Every event of `_expire_oldtimes` belongs to the touched group, has time
strictly below `max_t`, and reports a bucket that was present. -/
lemma expireOldtimes_ev {dp : Bool} {base : List (AggKey × Agginfo)}
    {e : Nat} {g : GroupId} {maxT : Int} {ev : AggEv}
    (h : ev ∈ (expireOldtimes dp base e g maxT).2) :
    ev.e = e ∧ ev.g = g ∧ ev.t < maxT ∧
      ∃ info, ((e, g, ev.t), info) ∈ base := by
  unfold expireOldtimes at h
  dsimp only at h
  obtain ⟨ot, hot, hfm⟩ := List.mem_filterMap.mp h
  cases hl : alookup base (e, g, ot) with
  | none =>
    rw [hl] at hfm
    cases hfm
  | some info =>
    rw [hl] at hfm
    injection hfm with hfm
    have hot' : ot ∈ (groupTimes base e g).filter (fun x => decide (x < maxT)) :=
      ((List.perm_insertionSort (· ≤ ·) _).mem_iff).mp hot
    have hlt : ot < maxT := by
      have := (List.mem_filter.mp hot').2
      simpa using this
    rw [← hfm]
    exact ⟨rfl, rfl, hlt, info, alookup_mem hl⟩

lemma filterMap_t_sublist (f : Int → Option AggEv)
    (h : ∀ a b, f a = some b → AggEv.t b = a) :
    ∀ l : List Int, ((l.filterMap f).map AggEv.t).Sublist l := by
  intro l
  induction l with
  | nil => simp
  | cons a rest ih =>
    rw [List.filterMap_cons]
    cases hf : f a with
    | none => exact ih.cons a
    | some b =>
      rw [List.map_cons, h a b hf]
      exact ih.cons₂ a

/-- The events of `_expire_oldtimes` come out in non-decreasing time order
(the expired times are sorted ascending before being finalized). -/
lemma expireOldtimes_sorted (dp : Bool) (base : List (AggKey × Agginfo))
    (e : Nat) (g : GroupId) (maxT : Int) :
    List.Pairwise (· ≤ ·)
      (((expireOldtimes dp base e g maxT).2).map AggEv.t) := by
  unfold expireOldtimes
  dsimp only
  have hsub := filterMap_t_sublist
    (fun ot => (alookup base (e, g, ot)).map (fun info =>
      AggEv.mk e g ot info.vsum info.count info.contribs (!dp)))
    (fun a b hab => by
      dsimp only at hab
      cases hl : alookup base (e, g, a) with
      | none => rw [hl] at hab; cases hab
      | some info =>
        rw [hl] at hab
        injection hab with hab
        rw [← hab])
    (((groupTimes base e g).filter
        (fun ot => decide (ot < maxT))).insertionSort (· ≤ ·))
  exact (List.sorted_insertionSort _ _).sublist hsub

/-- Extend `updateOldkeys_self`: the new watermark is either `t` itself or
the already-set old watermark. -/
lemma updateOldkeys_self_cases (ok : List ((Nat × GroupId) × Int)) (e : Nat)
    (g : GroupId) (t : Int) :
    ∃ w', alookup (updateOldkeys ok e g t) (e, g) = some w' ∧ t ≤ w' ∧
      (∀ w, alookup ok (e, g) = some w → w ≤ w') ∧
      (w' = t ∨ alookup ok (e, g) = some w') := by
  unfold updateOldkeys
  cases h : alookup ok (e, g) with
  | none =>
    dsimp only
    refine ⟨t, alookup_aset_self _ _ _, le_refl t, ?_, Or.inl rfl⟩
    intro w hw
    cases hw
  | some w =>
    dsimp only
    by_cases hgt : t > w
    · rw [if_pos hgt]
      refine ⟨t, alookup_aset_self _ _ _, le_refl t, ?_, Or.inl rfl⟩
      intro w0 hw0
      injection hw0 with hw0
      omega
    · rw [if_neg hgt]
      refine ⟨w, h, by omega, ?_, Or.inr rfl⟩
      intro w0 hw0
      injection hw0 with hw0
      omega

/-- The common finalization pattern of `AggSum.run` (the full-group path,
lines 162-181, and each timeout-sweep pop, lines 183-200): expire the
group's earlier buckets from `base`, finalize the bucket at time `t`, raise
the watermark.  The transition contract holds whenever `base` is a subset of
the live store, the invariant holds, and `t` is at or above the group's
watermark. -/
lemma finalize_stepOK (dp b : Bool) (seen base : List (AggKey × Agginfo))
    (ok : List ((Nat × GroupId) × Int)) (e : Nat) (g : GroupId) (t : Int)
    (vs : ℚ) (cnt : Nat) (cb : List (Option ℚ))
    (hsub : ∀ p ∈ base, p ∈ seen)
    (hInv : AggInv ⟨seen, ok⟩)
    (ht : wmLE (alookup ok (e, g)) t) :
    AggStepOK ⟨seen, ok⟩
      ⟨(expireOldtimes dp base e g t).1, updateOldkeys ok e g t⟩
      ((expireOldtimes dp base e g t).2 ++ [AggEv.mk e g t vs cnt cb b]) := by
  obtain ⟨w', hw', htw', hwmax, hcases⟩ := updateOldkeys_self_cases ok e g t
  refine ⟨?_, ?_, ?_, ?_, ?_⟩
  · intro p hp
    dsimp only at hp
    obtain ⟨hmem, hnot⟩ := expireOldtimes_mem hp
    intro w hw
    unfold oldKey at hw
    dsimp only at hw
    by_cases hk : (p.1.1, p.1.2.1) = (e, g)
    · rw [hk, hw'] at hw
      injection hw with hw
      have hge : t ≤ p.1.2.2 := by
        by_contra hlt
        exact hnot ⟨congrArg Prod.fst hk, congrArg Prod.snd hk, by omega⟩
      rcases hcases with hct | hcw
      · omega
      · have hlk : oldKey ⟨seen, ok⟩ p.1.1 p.1.2.1 = some w' := by
          unfold oldKey
          dsimp only
          rw [hk]
          exact hcw
        have h2 := hInv p (hsub p hmem) w' hlk
        omega
    · rw [updateOldkeys_ne ok e g t _ hk] at hw
      have := hInv p (hsub p hmem) w
      unfold oldKey at this
      exact this hw
  · intro e1 g1
    unfold oldKey
    dsimp only
    exact updateOldkeys_optLE ok e g t (e1, g1)
  · intro ev hev
    rcases List.mem_append.mp hev with h | h
    · obtain ⟨hee, heg, hlt, info, hbucket⟩ := expireOldtimes_ev h
      intro w hw
      unfold oldKey at hw
      dsimp only at hw
      have := hInv ((e, g, ev.t), info) (hsub _ hbucket) w
      unfold oldKey at this
      dsimp only at this
      rw [hee, heg] at hw
      exact this hw
    · rw [List.mem_singleton.mp h]
      intro w hw
      unfold oldKey at hw
      dsimp only at hw
      exact ht w hw
  · intro ev hev
    rcases List.mem_append.mp hev with h | h
    · obtain ⟨hee, heg, hlt, _, _⟩ := expireOldtimes_ev h
      refine ⟨w', ?_, by omega⟩
      unfold oldKey
      dsimp only
      rw [hee, heg]
      exact hw'
    · rw [List.mem_singleton.mp h]
      exact ⟨w', hw', htw'⟩
  · intro e1 g1
    by_cases hc : e = e1 ∧ g = g1
    · have hfex : (expireOldtimes dp base e g t).2.filter
          (fun ev => decide (ev.e = e1 ∧ ev.g = g1)) =
          (expireOldtimes dp base e g t).2 :=
        List.filter_eq_self.mpr (fun ev hev => by
          obtain ⟨hee, heg, _, _, _⟩ := expireOldtimes_ev hev
          simp [hee, heg, hc.1, hc.2])
      rw [List.filter_append, hfex]
      have hfev : List.filter (fun ev => decide (ev.e = e1 ∧ ev.g = g1))
          [AggEv.mk e g t vs cnt cb b] = [AggEv.mk e g t vs cnt cb b] := by
        simp [hc.1, hc.2]
      rw [hfev, List.map_append, List.pairwise_append]
      refine ⟨expireOldtimes_sorted dp base e g t, by simp, ?_⟩
      intro a ha b2 hb2
      obtain ⟨eva, hmema, heva⟩ := List.mem_map.mp ha
      obtain ⟨_, _, hlt, _, _⟩ := expireOldtimes_ev hmema
      rw [List.map_singleton, List.mem_singleton] at hb2
      rw [← heva, hb2]
      dsimp only
      omega
    · have hfex : (expireOldtimes dp base e g t).2.filter
          (fun ev => decide (ev.e = e1 ∧ ev.g = g1)) = [] :=
        List.filter_eq_nil.mpr (fun ev hev => by
          obtain ⟨hee, heg, _, _, _⟩ := expireOldtimes_ev hev
          simp only [decide_eq_true_eq]
          intro hcc
          exact hc ⟨by rw [← hee, hcc.1], by rw [← heg, hcc.2]⟩)
      have hfev : List.filter (fun ev => decide (ev.e = e1 ∧ ev.g = g1))
          [AggEv.mk e g t vs cnt cb b] = [] :=
        List.filter_eq_nil.mpr (fun ev hev => by
          rw [List.mem_singleton.mp hev]
          simp only [decide_eq_true_eq]
          intro hcc
          exact hc ⟨hcc.1, hcc.2⟩)
      rw [List.filter_append, hfex, hfev]
      simp

/-- Inserting or updating a bucket leaves the contract trivially satisfied:
no events, unchanged watermarks, and the invariant is preserved because the
accepted sample's time is at or above its group's watermark. -/
lemma insert_stepOK (s : AggState) (seen1 : List (AggKey × Agginfo))
    (hInv1 : AggInv ⟨seen1, s.old_keys⟩) :
    AggStepOK s ⟨seen1, s.old_keys⟩ [] :=
  ⟨hInv1, fun _ _ => optLE_refl _,
   fun _ hev => absurd hev (List.not_mem_nil _),
   fun _ hev => absurd hev (List.not_mem_nil _),
   fun _ _ => by simp⟩

lemma AggInv_aset {s : AggState} {e : Nat} {g : GroupId} {t : Int}
    (info1 : Agginfo) (hInv : AggInv s) (ht : wmLE (oldKey s e g) t) :
    AggInv ⟨aset s.agg_by_seen (e, g, t) info1, s.old_keys⟩ := by
  intro p hp
  rcases mem_aset hp with h | h
  · rw [h]
    exact ht
  · exact hInv p h

lemma AggInv_append {s : AggState} {e : Nat} {g : GroupId} {t : Int}
    (info1 : Agginfo) (hInv : AggInv s) (ht : wmLE (oldKey s e g) t) :
    AggInv ⟨s.agg_by_seen ++ [((e, g, t), info1)], s.old_keys⟩ := by
  intro p hp
  rcases List.mem_append.mp hp with h | h
  · exact hInv p h
  · rw [List.mem_singleton.mp h]
    exact ht

/-- The timeout sweep satisfies the transition contract. -/
lemma aggSweepAux_stepOK (dp : Bool) (expiry : Int) :
    ∀ (fuel : Nat) (s : AggState), AggInv s →
      AggStepOK s (aggSweepAux dp expiry fuel s).1
        (aggSweepAux dp expiry fuel s).2 := by
  intro fuel
  induction fuel with
  | zero =>
    intro s h
    exact AggStepOK_refl h
  | succ fuel ih =>
    intro s hInv
    rw [aggSweepAux]
    cases hseen : s.agg_by_seen with
    | nil => exact AggStepOK_refl hInv
    | cons hd rest =>
      obtain ⟨ak, info⟩ := hd
      dsimp only
      by_cases hfs : info.first_seen > expiry
      · rw [if_pos hfs]
        exact AggStepOK_refl hInv
      · rw [if_neg hfs]
        dsimp only
        have hfin := finalize_stepOK dp (!dp) s.agg_by_seen rest s.old_keys
          ak.1 ak.2.1 ak.2.2 info.vsum info.count info.contribs
          (fun p hp => by rw [hseen]; exact List.mem_cons_of_mem _ hp)
          hInv
          (by
            have := hInv (ak, info) (by rw [hseen]; exact List.mem_cons_self _ _)
            exact this)
        exact AggStepOK_comp hfin (ih _ hfin.1)

lemma aggSweep_stepOK (dp : Bool) (expiry : Int) (s : AggState)
    (h : AggInv s) :
    AggStepOK s (aggSweep dp expiry s).1 (aggSweep dp expiry s).2 := by
  unfold aggSweep
  exact aggSweepAux_stepOK dp expiry s.agg_by_seen.length s h

/-- One `AggSum.run` iteration satisfies the transition contract. -/
lemma aggStep_stepOK (gs : Nat) (timeout : Int) (dp : Bool) (s : AggState)
    (e : Nat) (g : GroupId) (v : Option ℚ) (t now : Int) (hInv : AggInv s) :
    AggStepOK s (aggStep gs timeout dp s e g v t now).1
      (aggStep gs timeout dp s e g v t now).2 := by
  unfold aggStep
  by_cases hold : isOld s e g t = true
  · rw [if_pos hold]
    exact AggStepOK_refl hInv
  · rw [if_neg hold]
    have hold' : isOld s e g t = false := by
      revert hold
      cases isOld s e g t <;> simp
    have ht : wmLE (oldKey s e g) t := isOld_false_wmLE hold'
    dsimp only
    cases halk : alookup s.agg_by_seen (e, g, t) with
    | some info =>
      dsimp only
      by_cases hfull : gs ≠ 0 ∧ info.count + 1 = gs
      · rw [if_pos hfull]
        have hins := insert_stepOK s _ (AggInv_aset
          ({ info with
             count := info.count + 1
             vsum := info.vsum + (v.getD 0)
             contribs := info.contribs ++ [v] }) hInv ht)
        have hfin := finalize_stepOK dp true
          (aset s.agg_by_seen (e, g, t)
            { info with
              count := info.count + 1
              vsum := info.vsum + (v.getD 0)
              contribs := info.contribs ++ [v] })
          (adel (aset s.agg_by_seen (e, g, t)
            { info with
              count := info.count + 1
              vsum := info.vsum + (v.getD 0)
              contribs := info.contribs ++ [v] }) (e, g, t))
          s.old_keys e g t
          (info.vsum + (v.getD 0)) (info.count + 1) (info.contribs ++ [v])
          (fun p hp => (List.mem_filter.mp hp).1)
          (AggInv_aset _ hInv ht) ht
        have hcomp := AggStepOK_comp hins hfin
        have hsw := aggSweep_stepOK dp (now - timeout) _ hcomp.1
        exact AggStepOK_congr (by rw [List.nil_append])
          (AggStepOK_comp hcomp hsw)
      · rw [if_neg hfull]
        have hins := insert_stepOK s _ (AggInv_aset
          ({ info with
             count := info.count + 1
             vsum := info.vsum + (v.getD 0)
             contribs := info.contribs ++ [v] }) hInv ht)
        have hsw := aggSweep_stepOK dp (now - timeout) _ hins.1
        exact AggStepOK_comp hins hsw
    | none =>
      dsimp only
      by_cases hfull : gs ≠ 0 ∧ 1 = gs
      · rw [if_pos hfull]
        have hins := insert_stepOK s _ (AggInv_append
          (⟨now, 1, v.getD 0, [v]⟩ : Agginfo) hInv ht)
        have hfin := finalize_stepOK dp true
          (s.agg_by_seen ++ [((e, g, t), (⟨now, 1, v.getD 0, [v]⟩ : Agginfo))])
          (adel (s.agg_by_seen ++
            [((e, g, t), (⟨now, 1, v.getD 0, [v]⟩ : Agginfo))]) (e, g, t))
          s.old_keys e g t (v.getD 0) 1 [v]
          (fun p hp => (List.mem_filter.mp hp).1)
          (AggInv_append _ hInv ht) ht
        have hcomp := AggStepOK_comp hins hfin
        have hsw := aggSweep_stepOK dp (now - timeout) _ hcomp.1
        exact AggStepOK_congr (by rw [List.nil_append])
          (AggStepOK_comp hcomp hsw)
      · rw [if_neg hfull]
        have hins := insert_stepOK s _ (AggInv_append
          (⟨now, 1, v.getD 0, [v]⟩ : Agginfo) hInv ht)
        have hsw := aggSweep_stepOK dp (now - timeout) _ hins.1
        exact AggStepOK_comp hins hsw

lemma AggInv_init : AggInv AggState.init :=
  fun p hp => absurd hp (List.not_mem_nil p)

/-- The whole `AggSum.run` loop satisfies the transition contract. -/
lemma aggRun_stepOK (ms : List (String → Option GroupId)) (gs : Nat)
    (timeout : Int) (dp : Bool) :
    ∀ (xs : List AggIn) (s : AggState), AggInv s →
      AggStepOK s (aggRun ms gs timeout dp s xs).1
        (aggRun ms gs timeout dp s xs).2 := by
  intro xs
  induction xs with
  | nil =>
    intro s h
    exact AggStepOK_refl h
  | cons x xs ih =>
    intro s hInv
    rw [aggRun]
    cases hm : firstMatch ms x.key with
    | none => exact ih s hInv
    | some p =>
      obtain ⟨e, g⟩ := p
      dsimp only
      have hstep := aggStep_stepOK gs timeout dp s e g x.value x.t x.now hInv
      exact AggStepOK_comp hstep (ih _ hstep.1)

/-- C1.  AggSum watermark invariant: for every input stream and every
`(expression, group id)` pair, the sequence of bucket-finalization times for
that pair — covering every bucket that is emitted by the full-group path or
the timeout sweep, and every bucket explicitly expired (even when
`droppartial` silently discards it) — is non-decreasing over the whole run.
In particular, once a bucket time `t` has been emitted or expired, no output
for that pair with time strictly less than `t` is ever emitted afterwards. -/
theorem aggsum_watermark_monotone (ms : List (String → Option GroupId))
    (gs : Nat) (timeout : Int) (dp : Bool) (e : Nat) (g : GroupId)
    (xs : List AggIn) :
    List.Pairwise (· ≤ ·)
      (((aggRun ms gs timeout dp AggState.init xs).2.filter
          (fun ev => decide (ev.e = e ∧ ev.g = g))).map AggEv.t) :=
  (aggRun_stepOK ms gs timeout dp xs AggState.init AggInv_init).2.2.2.2 e g

/-! ### AggSum value correctness -/

/-- A bucket is value-correct when its running sum equals the sum of its
recorded non-null contributions and its count equals the number of recorded
contributions (null contributions count but add nothing). -/
def AgginfoGood (info : Agginfo) : Prop :=
  info.vsum = (info.contribs.filterMap id).sum ∧
  info.count = info.contribs.length

/-- All live buckets are value-correct. -/
def AggVal (s : AggState) : Prop :=
  ∀ p ∈ s.agg_by_seen, AgginfoGood p.2

/-- A finalization event is value-correct. -/
def evGood (ev : AggEv) : Prop :=
  ev.vsum = (ev.contribs.filterMap id).sum ∧ ev.count = ev.contribs.length

/-- Accumulating one sample (lines 154-156) preserves value-correctness. -/
lemma AgginfoGood_update {info : Agginfo} (h : AgginfoGood info)
    (v : Option ℚ) :
    AgginfoGood { info with
      count := info.count + 1
      vsum := info.vsum + (v.getD 0)
      contribs := info.contribs ++ [v] } := by
  obtain ⟨h1, h2⟩ := h
  constructor
  · dsimp only
    rw [List.filterMap_append, List.sum_append, ← h1]
    cases v <;> simp
  · dsimp only
    rw [List.length_append, h2]
    rfl

/-- A freshly created bucket (line 150) is value-correct. -/
lemma AgginfoGood_new (now : Int) (v : Option ℚ) :
    AgginfoGood ⟨now, 1, v.getD 0, [v]⟩ := by
  cases v <;> exact ⟨by simp, rfl⟩

/-- An `_expire_oldtimes` event copies its bucket's contents verbatim. -/
lemma expireOldtimes_ev_val {dp : Bool} {base : List (AggKey × Agginfo)}
    {e : Nat} {g : GroupId} {maxT : Int} {ev : AggEv}
    (h : ev ∈ (expireOldtimes dp base e g maxT).2) :
    ∃ info, ((e, g, ev.t), info) ∈ base ∧ ev.vsum = info.vsum ∧
      ev.count = info.count ∧ ev.contribs = info.contribs := by
  unfold expireOldtimes at h
  dsimp only at h
  obtain ⟨ot, hot, hfm⟩ := List.mem_filterMap.mp h
  cases hl : alookup base (e, g, ot) with
  | none =>
    rw [hl] at hfm
    cases hfm
  | some info =>
    rw [hl] at hfm
    injection hfm with hfm
    refine ⟨info, ?_, by rw [← hfm], by rw [← hfm], by rw [← hfm]⟩
    rw [← hfm]
    exact alookup_mem hl

/-- The finalization pattern preserves value-correctness of the live buckets
and produces only value-correct events. -/
lemma finalize_valOK (dp b : Bool) (base : List (AggKey × Agginfo))
    (ok : List ((Nat × GroupId) × Int)) (e : Nat) (g : GroupId) (t : Int)
    (vs : ℚ) (cnt : Nat) (cb : List (Option ℚ))
    (hbase : ∀ p ∈ base, AgginfoGood p.2)
    (hev0 : vs = (cb.filterMap id).sum ∧ cnt = cb.length) :
    AggVal ⟨(expireOldtimes dp base e g t).1, updateOldkeys ok e g t⟩ ∧
    ∀ ev ∈ (expireOldtimes dp base e g t).2 ++ [AggEv.mk e g t vs cnt cb b],
      evGood ev := by
  constructor
  · intro p hp
    dsimp only at hp
    exact hbase p (expireOldtimes_mem hp).1
  · intro ev hev
    rcases List.mem_append.mp hev with h | h
    · obtain ⟨info, hmem, h1, h2, h3⟩ := expireOldtimes_ev_val h
      have hg := hbase _ hmem
      exact ⟨by rw [h1, h3]; exact hg.1, by rw [h2, h3]; exact hg.2⟩
    · rw [List.mem_singleton.mp h]
      exact hev0

/-- The timeout sweep preserves value-correctness. -/
lemma aggSweepAux_valOK (dp : Bool) (expiry : Int) :
    ∀ (fuel : Nat) (s : AggState), AggVal s →
      AggVal (aggSweepAux dp expiry fuel s).1 ∧
      ∀ ev ∈ (aggSweepAux dp expiry fuel s).2, evGood ev := by
  intro fuel
  induction fuel with
  | zero =>
    intro s h
    exact ⟨h, fun ev hev => absurd hev (List.not_mem_nil _)⟩
  | succ fuel ih =>
    intro s hval
    rw [aggSweepAux]
    cases hseen : s.agg_by_seen with
    | nil => exact ⟨hval, fun ev hev => absurd hev (List.not_mem_nil _)⟩
    | cons hd rest =>
      obtain ⟨ak, info⟩ := hd
      dsimp only
      by_cases hfs : info.first_seen > expiry
      · rw [if_pos hfs]
        exact ⟨hval, fun ev hev => absurd hev (List.not_mem_nil _)⟩
      · rw [if_neg hfs]
        dsimp only
        have hrest : ∀ p ∈ rest, AgginfoGood p.2 := fun p hp =>
          hval p (by rw [hseen]; exact List.mem_cons_of_mem _ hp)
        have hinfo : AgginfoGood info :=
          hval (ak, info) (by rw [hseen]; exact List.mem_cons_self _ _)
        have hfin := finalize_valOK dp (!dp) rest s.old_keys ak.1 ak.2.1
          ak.2.2 info.vsum info.count info.contribs hrest
          ⟨hinfo.1, hinfo.2⟩
        have hrec := ih ⟨(expireOldtimes dp rest ak.1 ak.2.1 ak.2.2).1,
          updateOldkeys s.old_keys ak.1 ak.2.1 ak.2.2⟩ hfin.1
        refine ⟨hrec.1, ?_⟩
        intro ev hev
        rcases List.mem_append.mp hev with h | h
        · exact hfin.2 ev h
        · exact hrec.2 ev h

lemma aggSweep_valOK (dp : Bool) (expiry : Int) (s : AggState)
    (h : AggVal s) :
    AggVal (aggSweep dp expiry s).1 ∧
    ∀ ev ∈ (aggSweep dp expiry s).2, evGood ev := by
  unfold aggSweep
  exact aggSweepAux_valOK dp expiry s.agg_by_seen.length s h

/-- One `AggSum.run` iteration preserves value-correctness. -/
lemma aggStep_valOK (gs : Nat) (timeout : Int) (dp : Bool) (s : AggState)
    (e : Nat) (g : GroupId) (v : Option ℚ) (t now : Int) (hval : AggVal s) :
    AggVal (aggStep gs timeout dp s e g v t now).1 ∧
    ∀ ev ∈ (aggStep gs timeout dp s e g v t now).2, evGood ev := by
  unfold aggStep
  by_cases hold : isOld s e g t = true
  · rw [if_pos hold]
    exact ⟨hval, fun ev hev => absurd hev (List.not_mem_nil _)⟩
  · rw [if_neg hold]
    dsimp only
    cases halk : alookup s.agg_by_seen (e, g, t) with
    | some info =>
      have hinfo : AgginfoGood info := hval _ (alookup_mem halk)
      have hupd := AgginfoGood_update hinfo v
      have hseen1 : ∀ p ∈ aset s.agg_by_seen (e, g, t)
          ({ info with
             count := info.count + 1
             vsum := info.vsum + (v.getD 0)
             contribs := info.contribs ++ [v] }), AgginfoGood p.2 := by
        intro p hp
        rcases mem_aset hp with h | h
        · rw [h]
          exact hupd
        · exact hval p h
      dsimp only
      by_cases hfull : gs ≠ 0 ∧ info.count + 1 = gs
      · rw [if_pos hfull]
        have hfin := finalize_valOK dp true
          (adel (aset s.agg_by_seen (e, g, t)
            ({ info with
               count := info.count + 1
               vsum := info.vsum + (v.getD 0)
               contribs := info.contribs ++ [v] })) (e, g, t))
          s.old_keys e g t
          (info.vsum + (v.getD 0)) (info.count + 1) (info.contribs ++ [v])
          (fun p hp => hseen1 p (List.mem_filter.mp hp).1)
          ⟨hupd.1, hupd.2⟩
        have hsw := aggSweep_valOK dp (now - timeout) _ hfin.1
        refine ⟨hsw.1, ?_⟩
        intro ev hev
        rcases List.mem_append.mp hev with h | h
        · exact hfin.2 ev h
        · exact hsw.2 ev h
      · rw [if_neg hfull]
        have hsw := aggSweep_valOK dp (now - timeout)
          ⟨aset s.agg_by_seen (e, g, t)
            ({ info with
               count := info.count + 1
               vsum := info.vsum + (v.getD 0)
               contribs := info.contribs ++ [v] }), s.old_keys⟩
          hseen1
        refine ⟨hsw.1, ?_⟩
        intro ev hev
        rcases List.mem_append.mp hev with h | h
        · exact absurd h (List.not_mem_nil _)
        · exact hsw.2 ev h
    | none =>
      have hnew := AgginfoGood_new now v
      have hseen1 : ∀ p ∈ s.agg_by_seen ++
          [((e, g, t), (⟨now, 1, v.getD 0, [v]⟩ : Agginfo))],
          AgginfoGood p.2 := by
        intro p hp
        rcases List.mem_append.mp hp with h | h
        · exact hval p h
        · rw [List.mem_singleton.mp h]
          exact hnew
      dsimp only
      by_cases hfull : gs ≠ 0 ∧ 1 = gs
      · rw [if_pos hfull]
        have hfin := finalize_valOK dp true
          (adel (s.agg_by_seen ++
            [((e, g, t), (⟨now, 1, v.getD 0, [v]⟩ : Agginfo))]) (e, g, t))
          s.old_keys e g t (v.getD 0) 1 [v]
          (fun p hp => hseen1 p (List.mem_filter.mp hp).1)
          ⟨hnew.1, hnew.2⟩
        have hsw := aggSweep_valOK dp (now - timeout) _ hfin.1
        refine ⟨hsw.1, ?_⟩
        intro ev hev
        rcases List.mem_append.mp hev with h | h
        · exact hfin.2 ev h
        · exact hsw.2 ev h
      · rw [if_neg hfull]
        have hsw := aggSweep_valOK dp (now - timeout)
          ⟨s.agg_by_seen ++
            [((e, g, t), (⟨now, 1, v.getD 0, [v]⟩ : Agginfo))], s.old_keys⟩
          hseen1
        refine ⟨hsw.1, ?_⟩
        intro ev hev
        rcases List.mem_append.mp hev with h | h
        · exact absurd h (List.not_mem_nil _)
        · exact hsw.2 ev h

/-- The whole `AggSum.run` loop preserves value-correctness. -/
lemma aggRun_valOK (ms : List (String → Option GroupId)) (gs : Nat)
    (timeout : Int) (dp : Bool) :
    ∀ (xs : List AggIn) (s : AggState), AggVal s →
      AggVal (aggRun ms gs timeout dp s xs).1 ∧
      ∀ ev ∈ (aggRun ms gs timeout dp s xs).2, evGood ev := by
  intro xs
  induction xs with
  | nil =>
    intro s h
    exact ⟨h, fun ev hev => absurd hev (List.not_mem_nil _)⟩
  | cons x xs ih =>
    intro s hval
    rw [aggRun]
    cases hm : firstMatch ms x.key with
    | none => exact ih s hval
    | some p =>
      obtain ⟨e, g⟩ := p
      dsimp only
      have hstep := aggStep_valOK gs timeout dp s e g x.value x.t x.now hval
      have hrest := ih _ hstep.1
      refine ⟨hrest.1, ?_⟩
      intro ev hev
      rcases List.mem_append.mp hev with h | h
      · exact hstep.2 ev h
      · exact hrest.2 ev h

/-- C7.  AggSum value correctness: every finalization event carries as
`vsum` exactly the sum of the non-null values of the samples accumulated
into that bucket, and as `count` the number of those samples (null-valued
samples increment the count but contribute zero to the sum).  `contribs` is
the ghost record of precisely the values accumulated at the lines
`agginfo.count += 1; if value is not None: agginfo.vsum += value`, so the
equation ties each output's value to the input samples of its bucket. -/
theorem aggsum_value_correct (ms : List (String → Option GroupId)) (gs : Nat)
    (timeout : Int) (dp : Bool) (xs : List AggIn) :
    ∀ ev ∈ (aggRun ms gs timeout dp AggState.init xs).2,
      ev.vsum = (ev.contribs.filterMap id).sum ∧
      ev.count = ev.contribs.length :=
  fun ev hev =>
    (aggRun_valOK ms gs timeout dp xs AggState.init
      (fun p hp => absurd hp (List.not_mem_nil p))).2 ev hev

/-- Witness for C7: with one match-all expression and `groupsize = 1`, a
null-valued sample at `t = 6` completes a bucket whose event has `vsum = 0`,
`count = 1` and contributions `[null]`: the null sample was counted but
added nothing. -/
theorem aggsum_value_correct_witness :
    (⟨0, [], 6, 0, 1, [none], true⟩ : AggEv) ∈
      (aggRun [fun _ => some []] 1 100 false AggState.init
        [⟨"k", some 3, 5, 0⟩, ⟨"k", none, 6, 0⟩]).2 ∧
    ((0 : ℚ) = (([none] : List (Option ℚ)).filterMap id).sum ∧
     (1 : Nat) = ([none] : List (Option ℚ)).length) := by
  have heq : (aggRun [fun _ => some []] 1 100 false AggState.init
        [⟨"k", some 3, 5, 0⟩, ⟨"k", none, 6, 0⟩]).2 =
      [(⟨0, [], 5, 3, 1, [some 3], true⟩ : AggEv),
       (⟨0, [], 6, 0, 1, [none], true⟩ : AggEv)] := by rfl
  have hmem : (⟨0, [], 6, 0, 1, [none], true⟩ : AggEv) ∈
      (aggRun [fun _ => some []] 1 100 false AggState.init
        [⟨"k", some 3, 5, 0⟩, ⟨"k", none, 6, 0⟩]).2 := by
    rw [heq]
    exact List.mem_cons_of_mem _ (List.mem_singleton.mpr rfl)
  exact ⟨hmem,
    aggsum_value_correct [fun _ => some []] 1 100 false
      [⟨"k", some 3, 5, 0⟩, ⟨"k", none, 6, 0⟩]
      (⟨0, [], 6, 0, 1, [none], true⟩ : AggEv) hmem⟩

end Watchtower
